import Mathlib

/-!
# Verification of the pprint pretty-printer

Shallow embedding of the `pprint` Rust crate: the document algebra
(`src/doc.rs`), the digit-count helper (`src/dtoa/count.rs`,
`src/dtoa/utils.rs`), the minimum-raggedness justifier (`src/utils.rs`)
and the stack-driven layout engine (`src/print.rs`).

Machine integers (`usize`, `u64`, `u128`) are embedded as `Nat`; wrapping
casts and wrapping subtraction are written with an explicit `% 2^w`.
External formatting crates (`itoap`, `dragonbox`) are out of the core per
the spec and are modelled as black-box decimal formatters.
-/

set_option maxHeartbeats 1000000
set_option maxRecDepth 100000

namespace PPrint

/-- Documents (`src/doc.rs`, `enum Doc`).  Byte payloads are modelled as
`Char` lists / `String`s.  The twelve fixed-width integer variants
`i8..isize` and `u8..usize` plus `i128`/`u128` are modelled by `iDoc`
(signed, bit width `w`) and `uDoc` (unsigned, bit width `w`); `isize` and
`usize` are 64-bit.  The `f32`/`f64` payloads carry the externally
formatted decimal string (the `dragonbox` crate is an external black box
per the spec). -/
inductive Doc where
  | Null
  | Char (c : Char)
  | DoubleChar (c0 c1 : Char)
  | TripleChar (c0 c1 c2 : Char)
  | QuadChar (c0 c1 c2 c3 : Char)
  | Bytes (b : List Char) (len : Nat)
  | SmallBytes (b : List Char) (len : Nat)
  | String (s : String)
  | iDoc (w : Nat) (v : Int)
  | uDoc (w : Nat) (v : Nat)
  | f32 (r : String)
  | f64 (r : String)
  | DoubleDoc (d0 d1 : Doc)
  | TripleDoc (d0 d1 d2 : Doc)
  | QuadDoc (d0 d1 d2 d3 : Doc)
  | Concat (docs : List Doc)
  | Group (d : Doc)
  | Indent (d : Doc)
  | Dedent (d : Doc)
  | Join (sep : Doc) (docs : List Doc)
  | SmartJoin (sep : Doc) (docs : List Doc)
  | IfBreak (t f : Doc)
  | Trim
  | HardlineDoc (d : Doc)
  | Hardline
  | Softline
  | Mediumline
  | Line

/-! ## Digit-count helper (`src/dtoa/count.rs`) -/

/-- The branch-minimal binary search over powers of ten from the
`impl_digit_count` macro body (`src/dtoa/count.rs` lines 56-96), applied to
the `u64` magnitude `n` with the sign-adjusted initial `count`. -/
def u64_digit_tree (n : Nat) (count : Nat) : Nat :=
  if n < 10000000000 then
    if n < 100000 then
      if n < 100 then
        if n < 10 then count + 1 else count + 2
      else
        if n < 1000 then count + 3
        else if n < 10000 then count + 4
        else count + 5
    else
      if n < 10000000 then
        if n < 1000000 then count + 6 else count + 7
      else
        if n < 100000000 then count + 8
        else if n < 1000000000 then count + 9
        else count + 10
  else
    if n < 10000000000000000 then
      if n < 100000000000000 then
        if n < 100000000000 then count + 11
        else if n < 1000000000000 then count + 12
        else if n < 10000000000000 then count + 13
        else count + 14
      else
        if n < 1000000000000000 then count + 15 else count + 16
    else
      if n < 1000000000000000000 then
        if n < 100000000000000000 then count + 17 else count + 18
      else
        if n < 10000000000000000000 then count + 19 else count + 20

/-- `DigitCount::len` for the signed 8..64-bit types (`impl_digit_count`
macro).  `v` is the typed value; `v as u64` is `v % 2^64` (sign
extension), and `(!x).wrapping_add(1)` is `(2^64 - 1 - x + 1) % 2^64`. -/
def digit_count_i64 (v : Int) : Nat :=
  if v = 0 then 1
  else
    let neg := v < 0
    let x : Nat := (v % (2 ^ 64 : Int)).toNat
    let n : Nat := if neg then (2 ^ 64 - 1 - x + 1) % 2 ^ 64 else x
    let count : Nat := if neg then 1 else 0
    u64_digit_tree n count

/-- `DigitCount::len` for the unsigned 8..64-bit types (`impl_digit_count`
macro; the `*self < 0` test is always false for them). -/
def digit_count_u64 (n : Nat) : Nat :=
  if n = 0 then 1 else u64_digit_tree n 0

def TEN_19 : Nat := 10000000000000000000

/-- `u128_mulhi` (`src/dtoa/utils.rs`): upper 128 bits of a 128x128-bit
product, via 64-bit limbs. -/
def u128_mulhi (x y : Nat) : Nat :=
  let x_lo := x % 2 ^ 64
  let x_hi := x / 2 ^ 64
  let y_lo := y % 2 ^ 64
  let y_hi := y / 2 ^ 64
  let carry := x_lo * y_lo / 2 ^ 64
  let m := x_lo * y_hi + carry
  let high1 := m / 2 ^ 64
  let m_lo := m % 2 ^ 64
  let high2 := (x_hi * y_lo + m_lo) / 2 ^ 64
  x_hi * y_hi + high1 + high2

/-- `udivmod_1e19` (`src/dtoa/utils.rs`): divide a `u128` by `10^19` using
the Granlund-Montgomery magic multiply; `>>` is division by the power of
two, the wrapping `u128` subtraction in `rem` is written with `+ 2^128`
and `% 2^128`, and the `as u64` cast is `% 2^64`. -/
def udivmod_1e19 (n : Nat) : Nat × Nat :=
  let quot :=
    if n < 2 ^ 83 then (n >>> 19) / (TEN_19 >>> 19)
    else u128_mulhi n 156927543384667019095894735580191660403 >>> 62
  let rem := ((n + 2 ^ 128 - quot * TEN_19) % 2 ^ 128) % 2 ^ 64
  (quot, rem)

/-- Body of `impl_digit_count_128` after the zero test and the magnitude
computation: split by `10^19` and count the halves with the `u64`
digit-counter. -/
def digit_count_u128_mag (n0 : Nat) : Nat :=
  let p := udivmod_1e19 n0
  let n := p.1
  let len := digit_count_u64 p.2
  let count := len
  if n ≠ 0 then
    let count := count + (19 - len)
    let p2 := udivmod_1e19 n
    let n2 := p2.1
    let len2 := digit_count_u64 p2.2
    let count := count + len2
    if n2 ≠ 0 then count + (38 - count) + 1 else count
  else count

/-- `DigitCount::len` for `i128` (`impl_digit_count_128` macro). -/
def digit_count_i128 (v : Int) : Nat :=
  if v = 0 then 1
  else
    let neg := v < 0
    let x : Nat := (v % (2 ^ 128 : Int)).toNat
    let n : Nat := if neg then (2 ^ 128 - 1 - x + 1) % 2 ^ 128 else x
    digit_count_u128_mag n + (if neg then 1 else 0)

/-- `DigitCount::len` for `u128` (`impl_digit_count_128` macro). -/
def digit_count_u128 (n : Nat) : Nat :=
  if n = 0 then 1 else digit_count_u128_mag n

/-! ## Decimal representation (reference for the digit-count claims, and
model of the external `itoap` integer formatter) -/

/-- Decimal digit characters of `n`, most significant first (empty for 0);
the fuel argument makes the `n / 10` recursion structural. -/
def dec_chars_aux : Nat → Nat → List Char
  | 0, _ => []
  | fuel + 1, n =>
    if n = 0 then [] else dec_chars_aux fuel (n / 10) ++ [Char.ofNat (48 + n % 10)]

/-- Decimal representation of a natural number. -/
def nat_dec_chars (n : Nat) : List Char :=
  if n = 0 then ['0'] else dec_chars_aux n n

/-- Decimal representation of an integer, with a leading minus sign for
negative values.  Models the output contract of the external `itoap`
formatter ("format integer into byte buffer", spec section 1). -/
def int_dec_chars (v : Int) : List Char :=
  if v < 0 then '-' :: nat_dec_chars v.natAbs else nat_dec_chars v.natAbs

/-- Byte length of the decimal representation of a natural number. -/
def dec_len_nat (n : Nat) : Nat := (nat_dec_chars n).length

/-- Byte length of the decimal representation of an integer (counting the
leading minus sign). -/
def dec_len_int (v : Int) : Nat := (int_dec_chars v).length

/-! ## Minimum-raggedness justifier (`src/utils.rs`, `text_justify`) -/

/-- `Score` (`src/utils.rs`): memoized badness plus next-break pointer. -/
structure Score where
  badness : Nat
  j : Nat
  deriving DecidableEq, Repr

def USIZE_MAX : Nat := 2 ^ 64 - 1

/-- The inner `for j in i..n` loop of `text_justify`: `ls` is the suffix
`doc_lengths[j..]`, `ms` the memo entries for `j+1..n`, `line_length` the
running (clamped) line length and `best` the evolving `memo[i]` entry.
The loop stops early once the clamped line length reaches `max_width`. -/
def inner_go (sep_length max_width i : Nat) :
    Nat → Nat → List Nat → List Score → Score → Score
  | _, _, [], _, best => best
  | _, _, _ :: _, [], best => best
  | j, line_length, l :: ls, next :: ms, best =>
    let line_length := line_length + l + (if j > i then sep_length else 0)
    let line_length := min line_length max_width
    let badness := (max_width - line_length) ^ 3
    let best :=
      if badness + next.badness < best.badness then ⟨badness + next.badness, j + 1⟩
      else best
    if line_length ≥ max_width then best
    else inner_go sep_length max_width i (j + 1) line_length ls ms best

/-- The memo vector of `text_justify`, built from index `n` down to `i`:
`memo_list sep w lens i` lists the entries for indices `i, i+1, ..., n`
where `lens` is `doc_lengths[i..]`.  Entry `n` is `⟨0, 0⟩`; every other
entry starts from the sentinel `⟨usize::MAX, n⟩` and is refined by the
inner loop (the source mutates `memo[i]` in place; the single write at
loop end is equivalent because `memo[j+1]` for `j ≥ i` is never at `i`). -/
def memo_list (sep_length max_width : Nat) : List Nat → Nat → List Score
  | [], _ => [⟨0, 0⟩]
  | l :: rest, i =>
    let tail := memo_list sep_length max_width rest (i + 1)
    inner_go sep_length max_width i i 0 (l :: rest) tail
      ⟨USIZE_MAX, i + (l :: rest).length⟩ :: tail

/-- The final `while i < n` scan producing the break positions.  The memo
pointers strictly increase (`memo[i].j ≥ i + 1`, proved below), so fuel
`n` makes the fuelled loop equal to the source's unbounded loop. -/
def breaks_chain (memo : List Score) (n : Nat) : Nat → Nat → List Nat
  | 0, _ => []
  | fuel + 1, i =>
    if i < n then
      let j := (memo.getD i ⟨0, 0⟩).j
      j :: breaks_chain memo n fuel j
    else []

/-- `text_justify` (`src/utils.rs`): the full dynamic program.  The source
pushes into an `&mut Vec` output argument; the pushed list is returned. -/
def text_justify (sep_length : Nat) (doc_lengths : List Nat) (max_width : Nat) :
    List Nat :=
  let n := doc_lengths.length
  let memo := memo_list sep_length max_width doc_lengths 0
  breaks_chain memo n n 0

/-! ## Printer configuration and layout state (`src/print.rs`) -/

structure Printer where
  max_width : Nat
  indent : Nat
  break_long_text : Bool
  use_tabs : Bool
  deriving DecidableEq, Repr

/-- Default printer configuration (`src/print.rs`, `PRINTER`). -/
def PRINTER : Printer := ⟨80, 4, false, false⟩

structure PrintItem where
  doc : Doc
  indent_delta : Nat
  left : Option Doc
  break_left : Nat

structure PrintState where
  stack : List PrintItem
  output : List Char
  current_line_len : Nat
  indent_delta : Nat
  space_cache : List Char
  join_breaks : List Nat

/-- `is_literal_doc` / inner `is_literal` (`src/print.rs`). -/
def is_literal : Doc → Bool
  | .Char _ | .DoubleChar _ _ | .TripleChar _ _ _ | .QuadChar _ _ _ _
  | .SmallBytes _ _ | .Bytes _ _ | .String _
  | .iDoc _ _ | .uDoc _ _ | .f32 _ | .f64 _
  | .Line | .Softline | .Mediumline | .Hardline => true
  | _ => false

def is_literal_doc : Doc → Bool
  | .DoubleDoc d1 d2 => is_literal_doc d1 && is_literal_doc d2
  | .TripleDoc d1 d2 d3 => is_literal_doc d1 && is_literal_doc d2 && is_literal_doc d3
  | .HardlineDoc d => is_literal_doc d
  | d => is_literal d

/-- `count_text_length` (`src/print.rs` lines 90-141), the width
estimator, with `count_join_length` inlined at the `Join`/`SmartJoin`
cases (the standalone function is recovered below).  `DoubleDoc`,
`TripleDoc`, `QuadDoc`, `Null`, `Trim`, `HardlineDoc` and `Mediumline`
fall to the catch-all `_ => 0` arm exactly as in the source. -/
def count_text_length (printer : Printer) : Doc → Nat
  | .Concat docs => go docs
  | .Group d => count_text_length printer d
  | .Indent d => count_text_length printer d + printer.indent
  | .Dedent d => count_text_length printer d - printer.indent
  | .Join sep docs =>
    if docs.isEmpty then 0
    else go docs + count_text_length printer sep * (docs.length - 1)
  | .SmartJoin sep docs =>
    let len :=
      if docs.isEmpty then 0
      else go docs + count_text_length printer sep * (docs.length - 1)
    min len (len + printer.max_width)
  | .IfBreak t f => max (count_text_length printer t) (count_text_length printer f)
  | .Softline => printer.max_width / 2
  | .Hardline => printer.max_width
  | .Line => printer.max_width
  | .Char _ => 1
  | .DoubleChar _ _ => 2
  | .TripleChar _ _ _ => 3
  | .QuadChar _ _ _ _ => 4
  | .SmallBytes _ len => len
  | .Bytes _ len => len
  | .String s => s.length
  | .iDoc w v => if w = 128 then digit_count_i128 v else digit_count_i64 v
  | .uDoc w v => if w = 128 then digit_count_u128 v else digit_count_u64 v
  | .f32 _ => 10
  | .f64 _ => 20
  | _ => 0
where go : List Doc → Nat
  | [] => 0
  | d :: ds => count_text_length printer d + go ds

/-- `count_join_length` (`src/print.rs` lines 78-87). -/
def count_join_length (printer : Printer) (sep : Doc) (docs : List Doc) : Nat :=
  if docs.isEmpty then 0
  else
    count_text_length.go printer docs + count_text_length printer sep * (docs.length - 1)

/-- `smart_join_breaks` (`src/print.rs` lines 144-162): clears the break
set and refills it from the justifier. -/
def smart_join_breaks (sep : Doc) (docs : List Doc) (state : PrintState)
    (printer : Printer) : PrintState :=
  let max_width := max (printer.max_width / 4) 2
  let sep_length := count_text_length printer sep
  let doc_lengths := docs.map (count_text_length printer)
  let sep_length := sep_length + max sep_length (doc_lengths.foldr max 0)
  { state with join_breaks := text_justify sep_length doc_lengths max_width }

/-- `append_line` (`src/print.rs` lines 231-250).  The space cache holds a
newline at index 0 followed by indent bytes; the function emits
`space_cache[..indent_delta]` and returns `indent_delta`. -/
def append_line (state : PrintState) (printer : Printer) : PrintState × Nat :=
  let indent_delta := state.indent_delta
  let space_cache := if state.space_cache.isEmpty then ['\n'] else state.space_cache
  let space_cache :=
    if space_cache.length ≤ indent_delta then
      space_cache ++
        List.replicate (indent_delta + 1 - space_cache.length)
          (if printer.use_tabs then '\t' else ' ')
    else space_cache
  ({ state with
      space_cache := space_cache
      output := state.output ++ space_cache.take indent_delta },
    indent_delta)

/-- `handle_line` (`src/print.rs` lines 253-270). -/
def handle_line (doc : Doc) (state : PrintState) (printer : Printer) :
    PrintState × Nat :=
  match doc with
  | .Line => ({ state with output := state.output ++ ['\n'] }, 0)
  | .Hardline => append_line state printer
  | .Mediumline =>
    if state.current_line_len > printer.max_width / 2 then append_line state printer
    else (state, state.current_line_len)
  | .Softline =>
    if state.current_line_len > printer.max_width then append_line state printer
    else (state, state.current_line_len)
  | _ => (state, state.current_line_len)

/-- `handle_literal` (`src/print.rs` lines 272-341).  Note that the
`SmallBytes` arm extends the output with the whole padded buffer while
counting only `len` columns, exactly as `extend_from_slice(b)` does. -/
def handle_literal (doc : Doc) (state : PrintState) (printer : Printer) :
    PrintState :=
  let so : PrintState × Nat :=
    match doc with
    | .Char c => ({ state with output := state.output ++ [c] }, 1)
    | .DoubleChar c0 c1 => ({ state with output := state.output ++ [c0, c1] }, 2)
    | .TripleChar c0 c1 c2 => ({ state with output := state.output ++ [c0, c1, c2] }, 3)
    | .QuadChar c0 c1 c2 c3 =>
      ({ state with output := state.output ++ [c0, c1, c2, c3] }, 4)
    | .SmallBytes b len => ({ state with output := state.output ++ b }, len)
    | .Bytes b len => ({ state with output := state.output ++ b }, len)
    | .String s => ({ state with output := state.output ++ s.data }, s.length)
    | .iDoc _ v =>
      ({ state with output := state.output ++ int_dec_chars v }, (int_dec_chars v).length)
    | .uDoc _ v =>
      ({ state with output := state.output ++ nat_dec_chars v }, (nat_dec_chars v).length)
    | .f32 r => ({ state with output := state.output ++ r.data }, r.length)
    | .f64 r => ({ state with output := state.output ++ r.data }, r.length)
    | _ => (state, 0)
  let hl := handle_line doc so.1 printer
  let state := { hl.1 with current_line_len := so.2 + hl.2 }
  match doc with
  | .DoubleDoc d1 d2 => handle_literal d2 (handle_literal d1 state printer) printer
  | .TripleDoc d1 d2 d3 =>
    handle_literal d3 (handle_literal d2 (handle_literal d1 state printer) printer) printer
  | _ => state

/-- The items pushed by the `for (i, d) in docs.iter().rev().enumerate()`
loop of `handle_join`, listed top-of-stack first (the source pushes them
in reverse).  `binary_search(&i).is_ok()` on the sorted break list is
membership. -/
def join_items (sep : Doc) (sep_is_lit : Bool) (ind : Nat) (breaks : List Nat) :
    Nat → List Doc → List PrintItem
  | _, [] => []
  | i, d :: rest =>
    let break_left := if breaks.contains i then ind else 0
    let left := if sep_is_lit ∧ 0 < i then some sep else none
    let sep_items : List PrintItem :=
      if ¬sep_is_lit ∧ 0 < i then [⟨sep, ind, none, break_left⟩] else []
    sep_items ++ ⟨d, ind, left, break_left⟩ ::
      join_items sep sep_is_lit ind breaks (i + 1) rest

/-- `handle_join` (`src/print.rs` lines 343-383). -/
def handle_join (is_smart : Bool) (sep : Doc) (docs : List Doc)
    (state : PrintState) (printer : Printer) : PrintState :=
  let state := if is_smart then smart_join_breaks sep docs state printer else state
  let sep_is_lit := is_literal_doc sep
  { state with
      stack :=
        join_items sep sep_is_lit state.indent_delta state.join_breaks 0 docs ++
          state.stack }

/-- `handle_n_docs_unrolled` (`src/print.rs` lines 419-517). -/
def handle_n_docs_unrolled (doc : Doc) (state : PrintState) (printer : Printer) :
    PrintState :=
  match doc with
  | .DoubleDoc d1 d2 =>
    let d1_lit := is_literal_doc d1
    let d2_lit := is_literal_doc d2
    if d1_lit && d2_lit then
      handle_literal d2 (handle_literal d1 state printer) printer
    else if d1_lit && !d2_lit then
      let state := handle_literal d1 state printer
      { state with stack := ⟨d2, state.indent_delta, none, 0⟩ :: state.stack }
    else
      { state with
          stack := ⟨d1, state.indent_delta, none, 0⟩ ::
            ⟨d2, state.indent_delta, none, 0⟩ :: state.stack }
  | .TripleDoc d1 d2 d3 =>
    let d3_lit := is_literal_doc d3
    let d2_lit := is_literal_doc d2
    let d1_lit := is_literal_doc d1
    if d1_lit && d2_lit && d3_lit then
      handle_literal d3 (handle_literal d2 (handle_literal d1 state printer) printer) printer
    else if d1_lit && d2_lit && !d3_lit then
      let state := handle_literal d2 (handle_literal d1 state printer) printer
      { state with stack := ⟨d3, state.indent_delta, none, 0⟩ :: state.stack }
    else if d1_lit && !d2_lit && !d3_lit then
      let state := handle_literal d1 state printer
      { state with
          stack := ⟨d2, state.indent_delta, none, 0⟩ ::
            ⟨d3, state.indent_delta, none, 0⟩ :: state.stack }
    else
      { state with
          stack := ⟨d1, state.indent_delta, none, 0⟩ ::
            ⟨d2, state.indent_delta, none, 0⟩ ::
            ⟨d3, state.indent_delta, none, 0⟩ :: state.stack }
  | _ => state

/-- Whether the top of the remaining stack is a break node, as inspected
by the `IfBreak` arm of `pprint` (`state.stack.last()` on a Rust `Vec` is
the most recently pushed item, the head of our list). -/
def top_is_break (stack : List PrintItem) : Bool :=
  match stack with
  | last :: _ =>
    match last.doc with
    | .Hardline | .Softline => true
    | _ => false
  | [] => false

/-- The prologue of a loop iteration of `pprint` (`src/print.rs` lines
554-559): emit the pending `left` literal, then the `break_left` prefix
break (with the indent delta still from the previous iteration). -/
def pre_state (item : PrintItem) (state : PrintState) (printer : Printer) :
    PrintState :=
  let state :=
    match item.left with
    | some l => handle_literal l state printer
    | none => state
  if 0 < item.break_left then
    let sn := append_line state printer
    { sn.1 with current_line_len := sn.2 }
  else state

/-- The per-variant dispatch of the `pprint` loop (`src/print.rs` lines
569-619), applied to the doc after one `Indent`/`Dedent` unwrap. -/
def dispatch (doc : Doc) (indent_delta : Nat) (state : PrintState)
    (printer : Printer) : PrintState :=
  match doc with
  | .Concat docs =>
    { state with
        stack := docs.map (fun d => ⟨d, indent_delta, none, 0⟩) ++ state.stack }
  | .Group d =>
    let needs_breaking := count_text_length printer d > printer.max_width
    let stack1 : List PrintItem :=
      if needs_breaking then
        ⟨.Hardline, indent_delta - printer.indent, none, 0⟩ :: state.stack
      else state.stack
    { state with
        stack :=
          ⟨d, indent_delta, none, if needs_breaking then indent_delta else 0⟩ ::
            stack1 }
  | .IfBreak t f =>
    let chosen := if top_is_break state.stack then t else f
    { state with stack := ⟨chosen, indent_delta, none, 0⟩ :: state.stack }
  | .Join sep docs => handle_join false sep docs state printer
  | .SmartJoin sep docs => handle_join true sep docs state printer
  | .DoubleDoc _ _ => handle_n_docs_unrolled doc state printer
  | .TripleDoc _ _ _ => handle_n_docs_unrolled doc state printer
  | _ => handle_literal doc state printer

/-- One iteration of the `while let Some(item) = state.stack.pop()` loop
of `pprint` (`src/print.rs` lines 547-620); `none` when the stack is
empty.  The `left` literal is emitted first, then the `break_left`
prefix break, then the popped doc is unwrapped one `Indent`/`Dedent`
level, `state.indent_delta` is set and the doc is dispatched. -/
def step (printer : Printer) (state : PrintState) : Option PrintState :=
  match state.stack with
  | [] => none
  | item :: rest =>
    some (
      let state := pre_state item { state with stack := rest } printer
      let du : Doc × Nat :=
        match item.doc with
        | .Indent d => (d, item.indent_delta + printer.indent)
        | .Dedent d => (d, item.indent_delta - printer.indent)
        | d => (d, item.indent_delta)
      let state := { state with indent_delta := du.2 }
      dispatch du.1 du.2 state printer)

/-- Fuelled iteration of the print loop. -/
def run (printer : Printer) : Nat → PrintState → PrintState
  | 0, s => s
  | fuel + 1, s =>
    match step printer s with
    | none => s
    | some s2 => run printer fuel s2

/-- Termination weight of a document: an upper bound on the number of
loop iterations its printing takes (each iteration pops one item and
pushes items of strictly smaller total weight, proved below). -/
def weight : Doc → Nat
  | .Concat docs => 1 + go docs
  | .Group d => 2 + weight d
  | .Indent d => 1 + weight d
  | .Dedent d => 1 + weight d
  | .Join sep docs => 1 + docs.length * weight sep + go docs
  | .SmartJoin sep docs => 1 + docs.length * weight sep + go docs
  | .IfBreak t f => 1 + weight t + weight f
  | .DoubleDoc a b => 1 + weight a + weight b
  | .TripleDoc a b c => 1 + weight a + weight b + weight c
  | _ => 1
where go : List Doc → Nat
  | [] => 0
  | d :: ds => weight d + go ds

/-- The initial state of `pprint`. -/
def init_state (doc : Doc) : PrintState := ⟨[⟨doc, 0, none, 0⟩], [], 0, 0, [], []⟩

/-- Weight of a work item: its doc plus its pending `left` separator. -/
def item_weight (it : PrintItem) : Nat :=
  weight it.doc +
    match it.left with
    | some l => weight l
    | none => 0

/-- Total weight of a work stack; strictly decreases at every `step`. -/
def stack_weight (l : List PrintItem) : Nat := (l.map item_weight).sum

/-- `true` when the document contains no `SmartJoin` node anywhere. -/
def smart_join_free : Doc → Bool
  | .SmartJoin _ _ => false
  | .DoubleDoc a b => smart_join_free a && smart_join_free b
  | .TripleDoc a b c => smart_join_free a && smart_join_free b && smart_join_free c
  | .QuadDoc a b c d =>
    smart_join_free a && smart_join_free b && smart_join_free c && smart_join_free d
  | .Concat ds => go ds
  | .Group d => smart_join_free d
  | .Indent d => smart_join_free d
  | .Dedent d => smart_join_free d
  | .HardlineDoc d => smart_join_free d
  | .Join sep ds => smart_join_free sep && go ds
  | .IfBreak a b => smart_join_free a && smart_join_free b
  | _ => true
where go : List Doc → Bool
  | [] => true
  | d :: ds => smart_join_free d && go ds

/-- `pprint` (`src/print.rs` lines 524-623): run the loop to completion
(fuel `weight doc` suffices, proved below) and return the output bytes as
a string. -/
def pprint (doc : Doc) (printer : Option Printer) : String :=
  let printer := printer.getD PRINTER
  ⟨(run printer (weight doc) (init_state doc)).output⟩

/-! ## Document constructors (`src/doc.rs`) -/

def BYTES_SIZE : Nat := 24

/-- `bytes` (`src/doc.rs` lines 110-129); the `SmallBytes` payload is the
zero-padded 24-byte buffer. -/
def bytes_doc (value : List Char) (len : Nat) : Doc :=
  if len = 1 then .Char (value.getD 0 (Char.ofNat 0))
  else if len = 2 then .DoubleChar (value.getD 0 (Char.ofNat 0)) (value.getD 1 (Char.ofNat 0))
  else if len = 3 then
    .TripleChar (value.getD 0 (Char.ofNat 0)) (value.getD 1 (Char.ofNat 0))
      (value.getD 2 (Char.ofNat 0))
  else if len = 4 then
    .QuadChar (value.getD 0 (Char.ofNat 0)) (value.getD 1 (Char.ofNat 0))
      (value.getD 2 (Char.ofNat 0)) (value.getD 3 (Char.ofNat 0))
  else if len ≤ BYTES_SIZE then
    .SmallBytes (value.take len ++ List.replicate (BYTES_SIZE - len) (Char.ofNat 0)) len
  else .Bytes value len

/-- `From<&str> for Doc` (`src/doc.rs`). -/
def from_str (s : String) : Doc := bytes_doc s.data s.length

/-- `concat` (`src/doc.rs` lines 139-154). -/
def concat_def (docs : List Doc) : Doc :=
  match docs with
  | [] => .Null
  | [d] => d
  | [d1, d2] => .DoubleDoc d1 d2
  | [d1, d2, d3] => .TripleDoc d1 d2 d3
  | _ => .Concat docs

/-- `wrap` (`src/doc.rs` lines 157-167). -/
def wrap_def (left doc right : Doc) : Doc := .TripleDoc left doc right

/-- `From<Vec<T>> for Doc` (`src/doc.rs` lines 398-423) instantiated at
`T = i32`: `smart_join(", ", vec).group().wrap("[", "]").indent()` for a
non-empty vector, the literal `[]` otherwise. -/
def doc_of_vec_i32 (xs : List Int) : Doc :=
  if xs.isEmpty then from_str "[]"
  else
    .Indent
      (wrap_def (from_str "[")
        (.Group (.SmartJoin (from_str ", ") (xs.map (Doc.iDoc 32))))
        (from_str "]"))

/-! ## Break sets and badness (spec section 4.3)

The reference notions the justifier claims are measured against: a line
covering items `[i..j)` has length `sum(lens[i..j]) + sep_len * (j-i-1)`
clamped to `max_line`, its badness is the cubed shortfall, and a break
set is a strictly increasing list of positions ending at `n`. -/

/-- `sum(lens[i..j))`. -/
def lens_sum (lens : List Nat) (i j : Nat) : Nat := ((lens.drop i).take (j - i)).sum

/-- Unclamped width of the line covering items `[i..j)`. -/
def line_len (sep_length : Nat) (lens : List Nat) (i j : Nat) : Nat :=
  lens_sum lens i j + sep_length * (j - i - 1)

/-- Badness of the line covering items `[i..j)`:
`(max_line - line_length)^3` with the length clamped to `max_line`. -/
def line_badness (sep_length max_width : Nat) (lens : List Nat) (i j : Nat) : Nat :=
  (max_width - min (line_len sep_length lens i j) max_width) ^ 3

/-- Total badness of the break set `bs` for the items starting at `i`. -/
def total_badness (sep_length max_width : Nat) (lens : List Nat) :
    Nat → List Nat → Nat
  | _, [] => 0
  | i, b :: bs =>
    line_badness sep_length max_width lens i b +
      total_badness sep_length max_width lens b bs

/-- `bs` is a break set for `[i..n)`: strictly increasing and ending
exactly at `n` (so together with the start `i` it partitions `[i..n)`
into consecutive non-empty lines). -/
def valid_from (n : Nat) : Nat → List Nat → Bool
  | i, [] => i = n
  | i, b :: bs => decide (i < b) && decide (b ≤ n) && valid_from n b bs

/-- A break set that the source's truncated inner search covers: each
line either holds a single item or all but its final item span strictly
less than `max_width` (the inner `for j` loop of `text_justify` stops as
soon as the running clamped length reaches `max_width`, so wider lines
are never considered). -/
def admissible_from (sep_length max_width n : Nat) (lens : List Nat) :
    Nat → List Nat → Bool
  | i, [] => i = n
  | i, b :: bs =>
    decide (i < b) && decide (b ≤ n) &&
      (decide (b = i + 1) || decide (line_len sep_length lens i (b - 1) < max_width)) &&
      admissible_from sep_length max_width n lens b bs

/-- The memo entry for absolute index `i`, read off the suffix memo
(`memo[i]` of the source's vector). -/
def memo_row (sep_length max_width : Nat) (lens : List Nat) (i : Nat) : Score :=
  (memo_list sep_length max_width (lens.drop i) i).getD 0 ⟨0, 0⟩

/-- Invariant of the running `best` score of the inner loop at row `i`:
it is the untouched sentinel, or it records an actual break candidate
`j'` together with that candidate's exact cost. -/
def row_inv (sep_length max_width : Nat) (lens : List Nat) (i : Nat) (b : Score) : Prop :=
  b.badness = USIZE_MAX ∨
    ∃ j', i < j' ∧ j' ≤ lens.length ∧ b.j = j' ∧
      b.badness = line_badness sep_length max_width lens i j' +
        (memo_row sep_length max_width lens j').badness

/-! ## Basic estimator lemmas -/

theorem count_go_eq_sum (p : Printer) (xs : List Doc) :
    count_text_length.go p xs = (xs.map (count_text_length p)).sum := by
  induction xs with
  | nil => rfl
  | cons d ds ih => simp [count_text_length.go, ih]

/-! ## Evaluation helpers

Concrete printings are evaluated one loop iteration at a time (kernel
whole-run reduction re-evaluates intermediate states). -/

theorem run_step_lit {p : Printer} {s s' t : PrintState} {f : Nat}
    (h1 : step p s = some s') (h2 : run p f s' = t) : run p (f + 1) s = t := by
  simp [run, h1, h2]

theorem run_empty {p : Printer} {f : Nat} {s : PrintState} (h : s.stack = []) :
    run p f s = s := by
  cases f with
  | zero => rfl
  | succ f => simp [run, step, h]

/-! ## Step preservation and termination

Each loop iteration pops one item and pushes items of strictly smaller
total weight, so `weight doc` iterations always drain the stack. -/

theorem weight_pos (d : Doc) : 1 ≤ weight d := by
  cases d <;> simp only [weight] <;> omega

theorem weight_go_eq_sum (xs : List Doc) : weight.go xs = (xs.map weight).sum := by
  induction xs with
  | nil => rfl
  | cons d ds ih => simp [weight.go, ih]

theorem stack_weight_append (a b : List PrintItem) :
    stack_weight (a ++ b) = stack_weight a + stack_weight b := by
  simp [stack_weight]

theorem append_line_stack (s : PrintState) (p : Printer) :
    (append_line s p).1.stack = s.stack := rfl

theorem append_line_indent_delta (s : PrintState) (p : Printer) :
    (append_line s p).1.indent_delta = s.indent_delta := rfl

theorem append_line_join_breaks (s : PrintState) (p : Printer) :
    (append_line s p).1.join_breaks = s.join_breaks := rfl

theorem handle_line_stack (d : Doc) (s : PrintState) (p : Printer) :
    (handle_line d s p).1.stack = s.stack := by
  cases d <;> simp only [handle_line] <;> first | rfl | (split <;> rfl)

theorem handle_line_indent_delta (d : Doc) (s : PrintState) (p : Printer) :
    (handle_line d s p).1.indent_delta = s.indent_delta := by
  cases d <;> simp only [handle_line] <;> first | rfl | (split <;> rfl)

theorem handle_line_join_breaks (d : Doc) (s : PrintState) (p : Printer) :
    (handle_line d s p).1.join_breaks = s.join_breaks := by
  cases d <;> simp only [handle_line] <;> first | rfl | (split <;> rfl)

theorem handle_literal_stack : ∀ (d : Doc) (s : PrintState) (p : Printer),
    (handle_literal d s p).stack = s.stack
  | .DoubleDoc a b, s, p => by
    simp only [handle_literal]
    rw [handle_literal_stack b, handle_literal_stack a]
    simp [handle_line_stack]
  | .TripleDoc a b c, s, p => by
    simp only [handle_literal]
    rw [handle_literal_stack c, handle_literal_stack b, handle_literal_stack a]
    simp [handle_line_stack]
  | .Null, s, p | .Char _, s, p | .DoubleChar _ _, s, p | .TripleChar _ _ _, s, p
  | .QuadChar _ _ _ _, s, p | .Bytes _ _, s, p | .SmallBytes _ _, s, p
  | .String _, s, p | .iDoc _ _, s, p | .uDoc _ _, s, p | .f32 _, s, p
  | .f64 _, s, p | .QuadDoc _ _ _ _, s, p | .Concat _, s, p | .Group _, s, p
  | .Indent _, s, p | .Dedent _, s, p | .Join _ _, s, p | .SmartJoin _ _, s, p
  | .IfBreak _ _, s, p | .Trim, s, p | .HardlineDoc _, s, p | .Hardline, s, p
  | .Softline, s, p | .Mediumline, s, p | .Line, s, p => by
    simp only [handle_literal]
    simp [handle_line_stack]

theorem handle_literal_indent_delta : ∀ (d : Doc) (s : PrintState) (p : Printer),
    (handle_literal d s p).indent_delta = s.indent_delta
  | .DoubleDoc a b, s, p => by
    simp only [handle_literal]
    rw [handle_literal_indent_delta b, handle_literal_indent_delta a]
    simp [handle_line_indent_delta]
  | .TripleDoc a b c, s, p => by
    simp only [handle_literal]
    rw [handle_literal_indent_delta c, handle_literal_indent_delta b,
      handle_literal_indent_delta a]
    simp [handle_line_indent_delta]
  | .Null, s, p | .Char _, s, p | .DoubleChar _ _, s, p | .TripleChar _ _ _, s, p
  | .QuadChar _ _ _ _, s, p | .Bytes _ _, s, p | .SmallBytes _ _, s, p
  | .String _, s, p | .iDoc _ _, s, p | .uDoc _ _, s, p | .f32 _, s, p
  | .f64 _, s, p | .QuadDoc _ _ _ _, s, p | .Concat _, s, p | .Group _, s, p
  | .Indent _, s, p | .Dedent _, s, p | .Join _ _, s, p | .SmartJoin _ _, s, p
  | .IfBreak _ _, s, p | .Trim, s, p | .HardlineDoc _, s, p | .Hardline, s, p
  | .Softline, s, p | .Mediumline, s, p | .Line, s, p => by
    simp only [handle_literal]
    simp [handle_line_indent_delta]

theorem handle_literal_join_breaks : ∀ (d : Doc) (s : PrintState) (p : Printer),
    (handle_literal d s p).join_breaks = s.join_breaks
  | .DoubleDoc a b, s, p => by
    simp only [handle_literal]
    rw [handle_literal_join_breaks b, handle_literal_join_breaks a]
    simp [handle_line_join_breaks]
  | .TripleDoc a b c, s, p => by
    simp only [handle_literal]
    rw [handle_literal_join_breaks c, handle_literal_join_breaks b,
      handle_literal_join_breaks a]
    simp [handle_line_join_breaks]
  | .Null, s, p | .Char _, s, p | .DoubleChar _ _, s, p | .TripleChar _ _ _, s, p
  | .QuadChar _ _ _ _, s, p | .Bytes _ _, s, p | .SmallBytes _ _, s, p
  | .String _, s, p | .iDoc _ _, s, p | .uDoc _ _, s, p | .f32 _, s, p
  | .f64 _, s, p | .QuadDoc _ _ _ _, s, p | .Concat _, s, p | .Group _, s, p
  | .Indent _, s, p | .Dedent _, s, p | .Join _ _, s, p | .SmartJoin _ _, s, p
  | .IfBreak _ _, s, p | .Trim, s, p | .HardlineDoc _, s, p | .Hardline, s, p
  | .Softline, s, p | .Mediumline, s, p | .Line, s, p => by
    simp only [handle_literal]
    simp [handle_line_join_breaks]

theorem pre_state_stack (it : PrintItem) (s : PrintState) (p : Printer) :
    (pre_state it s p).stack = s.stack := by
  simp only [pre_state]
  cases it.left <;> split <;> simp [handle_literal_stack, append_line_stack]

theorem pre_state_join_breaks (it : PrintItem) (s : PrintState) (p : Printer) :
    (pre_state it s p).join_breaks = s.join_breaks := by
  simp only [pre_state]
  cases it.left <;> split <;>
    simp [handle_literal_join_breaks, append_line_join_breaks]

theorem smart_join_breaks_stack (sep : Doc) (docs : List Doc) (s : PrintState)
    (p : Printer) : (smart_join_breaks sep docs s p).stack = s.stack := rfl

theorem smart_join_breaks_indent_delta (sep : Doc) (docs : List Doc)
    (s : PrintState) (p : Printer) :
    (smart_join_breaks sep docs s p).indent_delta = s.indent_delta := rfl

theorem join_items_weight (sep : Doc) (lit : Bool) (ind : Nat) (br : List Nat)
    (docs : List Doc) : ∀ i : Nat,
    stack_weight (join_items sep lit ind br i docs) ≤
      (docs.map weight).sum + docs.length * weight sep := by
  induction docs with
  | nil => intro i; simp [join_items, stack_weight]
  | cons d rest ih =>
    intro i
    have hrec := ih (i + 1)
    simp only [stack_weight] at hrec ⊢
    simp only [join_items]
    rcases Nat.eq_zero_or_pos i with hi | hi
    · subst hi
      cases lit <;>
        simp only [List.length_cons, Nat.succ_mul, List.map_cons, List.sum_cons] <;>
        (simp [item_weight] at hrec ⊢) <;> omega
    · have hi' : ¬ i = 0 := by omega
      cases lit <;>
        simp only [List.length_cons, Nat.succ_mul, List.map_cons, List.sum_cons] <;>
        (simp [item_weight, hi, hi'] at hrec ⊢) <;> omega

theorem dispatch_weight (doc : Doc) (ind : Nat) (s : PrintState) (p : Printer) :
    stack_weight (dispatch doc ind s p).stack + 1 ≤ weight doc + stack_weight s.stack := by
  cases doc
  case Concat docs =>
    have hm : ∀ ds : List Doc,
        stack_weight (ds.map fun d => (⟨d, ind, none, 0⟩ : PrintItem)) =
          (ds.map weight).sum := by
      intro ds
      induction ds with
      | nil => rfl
      | cons d ds ih => simp [stack_weight, item_weight] at ih ⊢; omega
    simp only [dispatch, weight]
    rw [stack_weight_append, hm, weight_go_eq_sum]
    omega
  case Group d =>
    by_cases hnb : count_text_length p d > p.max_width <;>
      simp [dispatch, hnb, stack_weight, item_weight, weight] <;> omega
  case IfBreak t f =>
    by_cases hb : top_is_break s.stack = true <;>
      simp [dispatch, hb, stack_weight, item_weight, weight] <;> omega
  case Join sep docs =>
    have hj := join_items_weight sep (is_literal_doc sep) s.indent_delta
      s.join_breaks docs 0
    simp [dispatch, handle_join, stack_weight_append, weight, weight_go_eq_sum]
    omega
  case SmartJoin sep docs =>
    have hj := join_items_weight sep (is_literal_doc sep) s.indent_delta
      (smart_join_breaks sep docs s p).join_breaks docs 0
    simp [dispatch, handle_join, stack_weight_append, weight, weight_go_eq_sum,
      smart_join_breaks_stack, smart_join_breaks_indent_delta]
    omega
  case DoubleDoc a b =>
    by_cases h1 : is_literal_doc a = true <;> by_cases h2 : is_literal_doc b = true <;>
      simp [dispatch, handle_n_docs_unrolled, h1, h2, handle_literal_stack,
        stack_weight, item_weight, weight] <;> omega
  case TripleDoc a b c =>
    by_cases h1 : is_literal_doc a = true <;> by_cases h2 : is_literal_doc b = true <;>
      by_cases h3 : is_literal_doc c = true <;>
      simp [dispatch, handle_n_docs_unrolled, h1, h2, h3, handle_literal_stack,
        stack_weight, item_weight, weight] <;> omega
  all_goals simp [dispatch, handle_literal_stack, weight]
  all_goals omega

theorem measure_aux (doc0 du1 : Doc) (ind : Nat) (t : PrintState) (p : Printer)
    (ileft : Option Doc) (ibl iind : Nat) (rest : List PrintItem)
    (hts : t.stack = rest) (hw : weight du1 ≤ weight doc0) :
    stack_weight (dispatch du1 ind t p).stack <
      stack_weight (⟨doc0, iind, ileft, ibl⟩ :: rest) := by
  have hd := dispatch_weight du1 ind t p
  rw [hts] at hd
  have hiw : weight doc0 ≤ item_weight ⟨doc0, iind, ileft, ibl⟩ :=
    Nat.le_add_right _ _
  have hsw : stack_weight (⟨doc0, iind, ileft, ibl⟩ :: rest) =
      item_weight ⟨doc0, iind, ileft, ibl⟩ + stack_weight rest := by
    simp [stack_weight]
  omega

theorem step_measure {p : Printer} {s s' : PrintState} (h : step p s = some s') :
    stack_weight s'.stack < stack_weight s.stack := by
  obtain ⟨stack, out, cll, idl, sc, jb⟩ := s
  cases stack with
  | nil => simp [step] at h
  | cons item rest =>
    obtain ⟨idoc, iind, ileft, ibl⟩ := item
    simp only [step, Option.some.injEq] at h
    subst h
    cases idoc <;>
      exact measure_aux _ _ _ _ _ _ _ _ _ (by simp [pre_state_stack])
        (by simp only [weight]; omega)

theorem step_none {p : Printer} {s : PrintState} (h : step p s = none) :
    s.stack = [] := by
  obtain ⟨stack, out, cll, idl, sc, jb⟩ := s
  cases stack with
  | nil => rfl
  | cons item rest => simp [step] at h

theorem run_halts (p : Printer) : ∀ (f : Nat) (s : PrintState),
    stack_weight s.stack ≤ f → (run p f s).stack = [] := by
  intro f
  induction f with
  | zero =>
    intro s h
    show s.stack = []
    cases hs : s.stack with
    | nil => rfl
    | cons it rest =>
      exfalso
      rw [hs] at h
      have h1 := weight_pos it.doc
      have h2 : 1 ≤ item_weight it := by
        simp only [item_weight]
        omega
      simp [stack_weight] at h
      omega
  | succ f ih =>
    intro s h
    cases hs : step p s with
    | none =>
      have h0 := step_none hs
      simp [run, hs, h0]
    | some s2 =>
      have hm := step_measure hs
      have h2 : stack_weight s2.stack ≤ f := by omega
      simp only [run, hs]
      exact ih s2 h2

theorem run_succ_of_halted (p : Printer) : ∀ (f : Nat) (s : PrintState),
    (run p f s).stack = [] → run p (f + 1) s = run p f s := by
  intro f
  induction f with
  | zero =>
    intro s h
    exact run_empty h
  | succ f ih =>
    intro s h
    cases hs : step p s with
    | none => simp [run, hs]
    | some s2 =>
      have h2 : (run p f s2).stack = [] := by
        have : run p (f + 1) s = run p f s2 := by simp [run, hs]
        rw [this] at h
        exact h
      have h3 := ih s2 h2
      show run p (f + 1 + 1) s = run p (f + 1) s
      have e1 : run p (f + 1 + 1) s = run p (f + 1) s2 := by simp [run, hs]
      have e2 : run p (f + 1) s = run p f s2 := by simp [run, hs]
      rw [e1, e2, h3]

/-! ## SmartJoin-free invariant (claim C10) -/

theorem sj_go_all {ds : List Doc} (h : smart_join_free.go ds = true) :
    ∀ d ∈ ds, smart_join_free d = true := by
  induction ds with
  | nil => intro d hd; simp at hd
  | cons a rest ih =>
    simp only [smart_join_free.go, Bool.and_eq_true] at h
    intro d hd
    rcases List.mem_cons.mp hd with h1 | h1
    · rw [h1]; exact h.1
    · exact ih h.2 d h1

theorem join_items_mem {sep : Doc} {lit : Bool} {ind : Nat} {br : List Nat}
    {docs : List Doc} : ∀ {i : Nat} {it : PrintItem},
    it ∈ join_items sep lit ind br i docs → it.doc = sep ∨ it.doc ∈ docs := by
  induction docs with
  | nil => intro i it h; simp [join_items] at h
  | cons d rest ih =>
    intro i it h
    simp only [join_items] at h
    rcases List.mem_append.mp h with h1 | h1
    · by_cases hc : ¬lit = true ∧ 0 < i
      · rw [if_pos hc] at h1
        simp at h1
        left
        rw [h1]
      · rw [if_neg hc] at h1
        simp at h1
    · rcases List.mem_cons.mp h1 with h2 | h2
      · right
        rw [h2]
        exact List.mem_cons_self _ _
      · rcases ih h2 with h3 | h3
        · exact Or.inl h3
        · exact Or.inr (List.mem_cons_of_mem _ h3)

theorem join_items_break_left_nil {sep : Doc} {lit : Bool} {ind : Nat}
    {docs : List Doc} : ∀ {i : Nat} {it : PrintItem},
    it ∈ join_items sep lit ind [] i docs → it.break_left = 0 := by
  induction docs with
  | nil => intro i it h; simp [join_items] at h
  | cons d rest ih =>
    intro i it h
    simp only [join_items, List.contains_nil] at h
    rcases List.mem_append.mp h with h1 | h1
    · by_cases hc : ¬lit = true ∧ 0 < i
      · rw [if_pos hc] at h1
        simp at h1
        rw [h1]
      · rw [if_neg hc] at h1
        simp at h1
    · rcases List.mem_cons.mp h1 with h2 | h2
      · rw [h2]
        simp
      · exact ih h2

theorem sjfree_aux (du1 : Doc) (ind : Nat) (t : PrintState) (p : Printer)
    (rest : List PrintItem)
    (hts : t.stack = rest) (htjb : t.join_breaks = [])
    (hrest : ∀ it ∈ rest, smart_join_free it.doc = true)
    (hfree : smart_join_free du1 = true) :
    (∀ it ∈ (dispatch du1 ind t p).stack, smart_join_free it.doc = true) ∧
      (dispatch du1 ind t p).join_breaks = [] := by
  cases du1
  case Concat docs =>
    simp only [smart_join_free] at hfree
    simp only [dispatch]
    refine ⟨?_, htjb⟩
    intro it hit
    simp only [hts] at hit
    rcases List.mem_append.mp hit with h1 | h1
    · obtain ⟨d, hd, rfl⟩ := List.mem_map.mp h1
      exact sj_go_all hfree d hd
    · exact hrest it h1
  case Group d =>
    simp only [smart_join_free] at hfree
    by_cases hnb : count_text_length p d > p.max_width <;>
      simp only [dispatch, if_pos, if_neg, hnb, ite_true, ite_false] <;>
      refine ⟨?_, htjb⟩ <;> intro it hit <;> simp only [hts] at hit
    · rcases List.mem_cons.mp hit with h1 | h1
      · rw [h1]; exact hfree
      · rcases List.mem_cons.mp h1 with h2 | h2
        · rw [h2]; rfl
        · exact hrest it h2
    · rcases List.mem_cons.mp hit with h1 | h1
      · rw [h1]; exact hfree
      · exact hrest it h1
  case IfBreak a b =>
    simp only [smart_join_free, Bool.and_eq_true] at hfree
    simp only [dispatch]
    refine ⟨?_, htjb⟩
    intro it hit
    simp only [hts] at hit
    rcases List.mem_cons.mp hit with h1 | h1
    · rw [h1]
      by_cases hb : top_is_break rest = true <;> simp [hb, hfree.1, hfree.2]
    · exact hrest it h1
  case Join sep docs =>
    simp only [smart_join_free, Bool.and_eq_true] at hfree
    simp only [dispatch, handle_join]
    refine ⟨?_, htjb⟩
    intro it hit
    simp [hts] at hit
    rcases hit with h1 | h1
    · rcases join_items_mem h1 with h2 | h2
      · rw [h2]; exact hfree.1
      · exact sj_go_all hfree.2 _ h2
    · exact hrest it h1
  case SmartJoin sep docs => exact absurd hfree (by simp [smart_join_free])
  case DoubleDoc a b =>
    simp only [smart_join_free, Bool.and_eq_true] at hfree
    by_cases h1 : is_literal_doc a = true <;> by_cases h2 : is_literal_doc b = true <;>
      simp only [dispatch, handle_n_docs_unrolled, h1, h2, Bool.and_self,
        Bool.and_true, Bool.and_false, Bool.true_and, Bool.false_and, Bool.not_true,
        Bool.not_false, ite_true, ite_false] <;>
      refine ⟨?_, by simp [handle_literal_join_breaks, htjb]⟩ <;>
      intro it hit <;>
      simp only [handle_literal_stack, hts] at hit
    · exact hrest it hit
    · rcases List.mem_cons.mp hit with hm | hm
      · rw [hm]; exact hfree.2
      · exact hrest it hm
    · rcases List.mem_cons.mp hit with hm | hm
      · rw [hm]; exact hfree.1
      · rcases List.mem_cons.mp hm with hm2 | hm2
        · rw [hm2]; exact hfree.2
        · exact hrest it hm2
    · rcases List.mem_cons.mp hit with hm | hm
      · rw [hm]; exact hfree.1
      · rcases List.mem_cons.mp hm with hm2 | hm2
        · rw [hm2]; exact hfree.2
        · exact hrest it hm2
  case TripleDoc a b c =>
    simp only [smart_join_free, Bool.and_eq_true] at hfree
    obtain ⟨⟨hfa, hfb⟩, hfc⟩ := hfree
    by_cases h1 : is_literal_doc a = true <;> by_cases h2 : is_literal_doc b = true <;>
      by_cases h3 : is_literal_doc c = true <;>
      simp only [dispatch, handle_n_docs_unrolled, h1, h2, h3, Bool.and_self,
        Bool.and_true, Bool.and_false, Bool.true_and, Bool.false_and, Bool.not_true,
        Bool.not_false, ite_true, ite_false] <;>
      refine ⟨?_, by simp [handle_literal_join_breaks, htjb]⟩ <;>
      intro it hit <;>
      simp only [handle_literal_stack, hts] at hit <;>
      first
        | exact hrest it hit
        | (rcases List.mem_cons.mp hit with hm | hm
           · first | (rw [hm]; exact hfa) | (rw [hm]; exact hfb) | (rw [hm]; exact hfc)
           · first
              | exact hrest it hm
              | (rcases List.mem_cons.mp hm with hm2 | hm2
                 · first | (rw [hm2]; exact hfb) | (rw [hm2]; exact hfc)
                 · first
                    | exact hrest it hm2
                    | (rcases List.mem_cons.mp hm2 with hm3 | hm3
                       · rw [hm3]; exact hfc
                       · exact hrest it hm3)))
  all_goals (
    simp only [dispatch]
    refine ⟨?_, ?_⟩
    · intro it hit
      rw [handle_literal_stack, hts] at hit
      exact hrest it hit
    · rw [handle_literal_join_breaks]
      exact htjb)

theorem step_preserves_sjfree {p : Printer} {s s' : PrintState}
    (h : step p s = some s')
    (hst : ∀ it ∈ s.stack, smart_join_free it.doc = true)
    (hjb : s.join_breaks = []) :
    (∀ it ∈ s'.stack, smart_join_free it.doc = true) ∧ s'.join_breaks = [] := by
  obtain ⟨stack, out, cll, idl, sc, jb⟩ := s
  cases stack with
  | nil => simp [step] at h
  | cons item rest =>
    obtain ⟨idoc, iind, ileft, ibl⟩ := item
    have hjb' : jb = [] := hjb
    have hfree0 : smart_join_free idoc = true :=
      hst ⟨idoc, iind, ileft, ibl⟩ (List.mem_cons_self _ _)
    have hrest : ∀ it ∈ rest, smart_join_free it.doc = true := by
      intro it hit
      exact hst it (List.mem_cons_of_mem _ hit)
    simp only [step, Option.some.injEq] at h
    subst h
    cases idoc <;>
      exact sjfree_aux _ _ _ _ _ (by simp [pre_state_stack])
        (by simp [pre_state_join_breaks, hjb']) hrest hfree0

/-! ## Claim C5 (fitting group is transparent) -/

/-- **C5.** If the estimated width of `D` is at most `max_width`, then the
group contributes nothing: processing `Group(D)` just pushes `D` with no
prefix break and no trailing hardline, so `print(Group(D))` equals
`print(D)` exactly. -/
theorem c5 (D : Doc) (p : Printer) (h : count_text_length p D ≤ p.max_width) :
    pprint (.Group D) (some p) = pprint D (some p) := by
  have hnb : ¬ count_text_length p D > p.max_width := by omega
  have hstep : step p (init_state (.Group D)) = some (init_state D) := by
    simp [step, pre_state, dispatch, init_state, hnb]
  have hw : weight (Doc.Group D) = weight D + 1 + 1 := by
    simp only [weight]
    omega
  have h1 : run p (weight D + 1 + 1) (init_state (.Group D)) =
      run p (weight D + 1) (init_state D) := run_step_lit hstep rfl
  have hhalt : (run p (weight D) (init_state D)).stack = [] := by
    apply run_halts
    simp [init_state, stack_weight, item_weight]
  have h2 : run p (weight D + 1) (init_state D) =
      run p (weight D) (init_state D) := run_succ_of_halted p _ _ hhalt
  show String.mk (run p (weight (.Group D)) (init_state (.Group D))).output =
    String.mk (run p (weight D) (init_state D)).output
  rw [hw, h1, h2]

/-- **C5, witness.** -/
theorem c5_witness :
    count_text_length PRINTER (from_str "hi") ≤ PRINTER.max_width ∧
    pprint (.Group (from_str "hi")) (some PRINTER) = pprint (from_str "hi") (some PRINTER) :=
  ⟨by decide, c5 (from_str "hi") PRINTER (by decide)⟩


/-! ## Claim C1 (IfBreak direction) -/

/-- **C1, counterexample.** The claim says `IfBreak(on, off)` emits `on`
exactly when the immediately preceding emitted node was a break, so after
a `Hardline` the `on` branch (here `","`) should appear.  The engine
instead inspects the item *following* the `IfBreak` on the work stack:
with the break before it and nothing after it, the `off` branch `"x"` is
emitted (and the depth-0 hardline emits nothing), refuting the claim. -/
theorem c1_counterexample :
    pprint (.Concat [.Hardline, .IfBreak (from_str ",") (from_str "x")]) none = "x" := by
  have t1 : step PRINTER (⟨[⟨(.Concat [.Hardline, (.IfBreak (.Char ',') (.Char 'x'))]), 0, none, 0⟩], [], 0, 0, [], []⟩ : PrintState) =
      some (⟨[⟨.Hardline, 0, none, 0⟩, ⟨(.IfBreak (.Char ',') (.Char 'x')), 0, none, 0⟩], [], 0, 0, [], []⟩ : PrintState) := rfl
  have t2 : step PRINTER (⟨[⟨.Hardline, 0, none, 0⟩, ⟨(.IfBreak (.Char ',') (.Char 'x')), 0, none, 0⟩], [], 0, 0, [], []⟩ : PrintState) =
      some (⟨[⟨(.IfBreak (.Char ',') (.Char 'x')), 0, none, 0⟩], [], 0, 0, ['\n'], []⟩ : PrintState) := rfl
  have t3 : step PRINTER (⟨[⟨(.IfBreak (.Char ',') (.Char 'x')), 0, none, 0⟩], [], 0, 0, ['\n'], []⟩ : PrintState) =
      some (⟨[⟨(.Char 'x'), 0, none, 0⟩], [], 0, 0, ['\n'], []⟩ : PrintState) := rfl
  have t4 : step PRINTER (⟨[⟨(.Char 'x'), 0, none, 0⟩], [], 0, 0, ['\n'], []⟩ : PrintState) =
      some (⟨[], ['x'], 1, 0, ['\n'], []⟩ : PrintState) := rfl
  have hrun : run PRINTER 5 (⟨[⟨(.Concat [.Hardline, (.IfBreak (.Char ',') (.Char 'x'))]), 0, none, 0⟩], [], 0, 0, [], []⟩ : PrintState) =
      (⟨[], ['x'], 1, 0, ['\n'], []⟩ : PrintState) :=
    run_step_lit t1 (run_step_lit t2 (run_step_lit t3 (run_step_lit t4 (run_empty rfl))))
  show String.mk (run PRINTER 5 (⟨[⟨(.Concat [.Hardline, (.IfBreak (.Char ',') (.Char 'x'))]), 0, none, 0⟩], [], 0, 0, [], []⟩ : PrintState)).output = _
  rw [hrun]

/-- **C1, amended.** `IfBreak(on, off)` emits `on` exactly when the item
immediately *following* it on the work stack at processing time is a
`Hardline` or `Softline`; consequently `IfBreak(Text(","), Text("x"))`
placed immediately *before* a `Hardline` renders as `","`, and the same
construct with no adjacent break renders as the `off` branch. -/
theorem c1_amended :
    (∀ (p : Printer) (a b : Doc) (d : Nat) (rest : List PrintItem)
        (out : List Char) (cll idl : Nat) (sc : List Char) (jb : List Nat),
      step p ⟨⟨.IfBreak a b, d, none, 0⟩ :: rest, out, cll, idl, sc, jb⟩ =
        some ⟨⟨(if top_is_break rest then a else b), d, none, 0⟩ :: rest,
          out, cll, d, sc, jb⟩) ∧
    pprint (.Concat [.IfBreak (from_str ",") (from_str "x"), .Hardline]) none = "," ∧
    pprint (.IfBreak (from_str ",") (from_str "x")) none = "x" := by
  refine ⟨fun p a b d rest out cll idl sc jb => rfl, ?_, ?_⟩
  · have t1 : step PRINTER (⟨[⟨(.Concat [(.IfBreak (.Char ',') (.Char 'x')), .Hardline]), 0, none, 0⟩], [], 0, 0, [], []⟩ : PrintState) =
        some (⟨[⟨(.IfBreak (.Char ',') (.Char 'x')), 0, none, 0⟩, ⟨.Hardline, 0, none, 0⟩], [], 0, 0, [], []⟩ : PrintState) := rfl
    have t2 : step PRINTER (⟨[⟨(.IfBreak (.Char ',') (.Char 'x')), 0, none, 0⟩, ⟨.Hardline, 0, none, 0⟩], [], 0, 0, [], []⟩ : PrintState) =
        some (⟨[⟨(.Char ','), 0, none, 0⟩, ⟨.Hardline, 0, none, 0⟩], [], 0, 0, [], []⟩ : PrintState) := rfl
    have t3 : step PRINTER (⟨[⟨(.Char ','), 0, none, 0⟩, ⟨.Hardline, 0, none, 0⟩], [], 0, 0, [], []⟩ : PrintState) =
        some (⟨[⟨.Hardline, 0, none, 0⟩], [','], 1, 0, [], []⟩ : PrintState) := rfl
    have t4 : step PRINTER (⟨[⟨.Hardline, 0, none, 0⟩], [','], 1, 0, [], []⟩ : PrintState) =
        some (⟨[], [','], 0, 0, ['\n'], []⟩ : PrintState) := rfl
    have hrun : run PRINTER 5 (⟨[⟨(.Concat [(.IfBreak (.Char ',') (.Char 'x')), .Hardline]), 0, none, 0⟩], [], 0, 0, [], []⟩ : PrintState) =
        (⟨[], [','], 0, 0, ['\n'], []⟩ : PrintState) :=
      run_step_lit t1 (run_step_lit t2 (run_step_lit t3 (run_step_lit t4 (run_empty rfl))))
    show String.mk (run PRINTER 5 (⟨[⟨(.Concat [(.IfBreak (.Char ',') (.Char 'x')), .Hardline]), 0, none, 0⟩], [], 0, 0, [], []⟩ : PrintState)).output = _
    rw [hrun]
  · have t1 : step PRINTER (⟨[⟨(.IfBreak (.Char ',') (.Char 'x')), 0, none, 0⟩], [], 0, 0, [], []⟩ : PrintState) =
        some (⟨[⟨(.Char 'x'), 0, none, 0⟩], [], 0, 0, [], []⟩ : PrintState) := rfl
    have t2 : step PRINTER (⟨[⟨(.Char 'x'), 0, none, 0⟩], [], 0, 0, [], []⟩ : PrintState) =
        some (⟨[], ['x'], 1, 0, [], []⟩ : PrintState) := rfl
    have hrun : run PRINTER 3 (⟨[⟨(.IfBreak (.Char ',') (.Char 'x')), 0, none, 0⟩], [], 0, 0, [], []⟩ : PrintState) =
        (⟨[], ['x'], 1, 0, [], []⟩ : PrintState) :=
      run_step_lit t1 (run_step_lit t2 (run_empty rfl))
    show String.mk (run PRINTER 3 (⟨[⟨(.IfBreak (.Char ',') (.Char 'x')), 0, none, 0⟩], [], 0, 0, [], []⟩ : PrintState)).output = _
    rw [hrun]

/-! ## Claim C2 (Hardline emission) -/

/-- **C2, failing input.** The claim (and the crate's own doc comment,
"an absolute line break, i.e. a line break that is always printed") says
a `Hardline` emits a newline followed by `indent_depth` indent bytes.
`append_line` however emits `space_cache[..indent_delta]`, whose first
byte is the cached `'\n'`: at indent depth 0 a `Hardline` emits nothing
at all, and at depth 4 it emits a newline followed by only three spaces. -/
theorem c2_code_bug_eval :
    pprint .Hardline none = "" ∧
    pprint (.Indent (.Concat [from_str "a", .Hardline, from_str "b"])) none =
      "a\n   b" := by
  refine ⟨by decide, ?_⟩
  have t1 : step PRINTER (⟨[⟨(.Indent (.Concat [(.Char 'a'), .Hardline, (.Char 'b')])), 0, none, 0⟩], [], 0, 0, [], []⟩ : PrintState) =
      some (⟨[⟨(.Char 'a'), 4, none, 0⟩, ⟨.Hardline, 4, none, 0⟩, ⟨(.Char 'b'), 4, none, 0⟩], [], 0, 4, [], []⟩ : PrintState) := rfl
  have t2 : step PRINTER (⟨[⟨(.Char 'a'), 4, none, 0⟩, ⟨.Hardline, 4, none, 0⟩, ⟨(.Char 'b'), 4, none, 0⟩], [], 0, 4, [], []⟩ : PrintState) =
      some (⟨[⟨.Hardline, 4, none, 0⟩, ⟨(.Char 'b'), 4, none, 0⟩], ['a'], 1, 4, [], []⟩ : PrintState) := rfl
  have t3 : step PRINTER (⟨[⟨.Hardline, 4, none, 0⟩, ⟨(.Char 'b'), 4, none, 0⟩], ['a'], 1, 4, [], []⟩ : PrintState) =
      some (⟨[⟨(.Char 'b'), 4, none, 0⟩], ['a', '\n', ' ', ' ', ' '], 4, 4, ['\n', ' ', ' ', ' ', ' '], []⟩ : PrintState) := rfl
  have t4 : step PRINTER (⟨[⟨(.Char 'b'), 4, none, 0⟩], ['a', '\n', ' ', ' ', ' '], 4, 4, ['\n', ' ', ' ', ' ', ' '], []⟩ : PrintState) =
      some (⟨[], ['a', '\n', ' ', ' ', ' ', 'b'], 5, 4, ['\n', ' ', ' ', ' ', ' '], []⟩ : PrintState) := rfl
  have hrun : run PRINTER 5 (⟨[⟨(.Indent (.Concat [(.Char 'a'), .Hardline, (.Char 'b')])), 0, none, 0⟩], [], 0, 0, [], []⟩ : PrintState) =
      (⟨[], ['a', '\n', ' ', ' ', ' ', 'b'], 5, 4, ['\n', ' ', ' ', ' ', ' '], []⟩ : PrintState) :=
    run_step_lit t1 (run_step_lit t2 (run_step_lit t3 (run_step_lit t4 (run_empty rfl))))
  show String.mk (run PRINTER 5 (⟨[⟨(.Indent (.Concat [(.Char 'a'), .Hardline, (.Char 'b')])), 0, none, 0⟩], [], 0, 0, [], []⟩ : PrintState)).output = _
  rw [hrun]

/-! ## Claim C3 (justifier optimality), counterexample -/

/-- **C3, counterexample.** With `sep_len = 0`, `lens = [2,2,2]`,
`max_line = 3`, the justifier returns `[1, 3]` with total badness 1, but
the break set `[3]` (one over-full clamped line) has total badness 0:
the inner search stops as soon as a line reaches `max_line`, so it never
considers the cheaper wider line, refuting optimality. -/
theorem c3_counterexample :
    text_justify 0 [2, 2, 2] 3 = [1, 3] ∧
    valid_from 3 0 [3] = true ∧
    valid_from 3 0 (text_justify 0 [2, 2, 2] 3) = true ∧
    total_badness 0 3 [2, 2, 2] 0 [3] <
      total_badness 0 3 [2, 2, 2] 0 (text_justify 0 [2, 2, 2] 3) := by
  exact ⟨by decide, by decide, by decide, by decide⟩

/-! ## Claim C6 (group of hardlines) -/

/-- **C6, counterexample.** A `Group` whose child is a single `Hardline`
is *not* treated as breaking: the hardline's estimate equals `max_width`
exactly and the engine breaks only on a strictly greater estimate, so
`Group(Hardline)` prints exactly like the bare `Hardline` (shown here
under an `Indent` so the would-be surrounding breaks are observable). -/
theorem c6_counterexample :
    ¬ count_text_length PRINTER .Hardline > PRINTER.max_width ∧
    pprint (.Indent (.Group .Hardline)) none = pprint (.Indent .Hardline) none := by
  refine ⟨by decide, ?_⟩
  have h1 : pprint (.Indent (.Group .Hardline)) none = "\n   " := by
    have t1 : step PRINTER (⟨[⟨(.Indent (.Group .Hardline)), 0, none, 0⟩], [], 0, 0, [], []⟩ : PrintState) =
        some (⟨[⟨.Hardline, 4, none, 0⟩], [], 0, 4, [], []⟩ : PrintState) := rfl
    have t2 : step PRINTER (⟨[⟨.Hardline, 4, none, 0⟩], [], 0, 4, [], []⟩ : PrintState) =
        some (⟨[], ['\n', ' ', ' ', ' '], 4, 4, ['\n', ' ', ' ', ' ', ' '], []⟩ : PrintState) := rfl
    have hrun : run PRINTER 4 (⟨[⟨(.Indent (.Group .Hardline)), 0, none, 0⟩], [], 0, 0, [], []⟩ : PrintState) =
        (⟨[], ['\n', ' ', ' ', ' '], 4, 4, ['\n', ' ', ' ', ' ', ' '], []⟩ : PrintState) :=
      run_step_lit t1 (run_step_lit t2 (run_empty rfl))
    show String.mk (run PRINTER 4 (⟨[⟨(.Indent (.Group .Hardline)), 0, none, 0⟩], [], 0, 0, [], []⟩ : PrintState)).output = _
    rw [hrun]
  have h2 : pprint (.Indent .Hardline) none = "\n   " := by
    have t1 : step PRINTER (⟨[⟨(.Indent .Hardline), 0, none, 0⟩], [], 0, 0, [], []⟩ : PrintState) =
        some (⟨[], ['\n', ' ', ' ', ' '], 4, 4, ['\n', ' ', ' ', ' ', ' '], []⟩ : PrintState) := rfl
    have hrun : run PRINTER 2 (⟨[⟨(.Indent .Hardline), 0, none, 0⟩], [], 0, 0, [], []⟩ : PrintState) =
        (⟨[], ['\n', ' ', ' ', ' '], 4, 4, ['\n', ' ', ' ', ' ', ' '], []⟩ : PrintState) :=
      run_step_lit t1 (run_empty rfl)
    show String.mk (run PRINTER 2 (⟨[⟨(.Indent .Hardline), 0, none, 0⟩], [], 0, 0, [], []⟩ : PrintState)).output = _
    rw [hrun]
  rw [h1, h2]

/-- **C6, amended.** A `Group` forces its surrounding breaks only when
its child's estimate *strictly* exceeds `max_width`.  A child consisting
exclusively of hardlines reaches that threshold only with at least two
hardlines (and a positive `max_width`); a single hardline estimates to
exactly `max_width` and does not break (see the counterexample).  When
the threshold is met, processing the group pushes the child with a
leading break and a trailing dedented `Hardline`, exactly as claimed. -/
theorem c6_amended :
    (∀ (p : Printer) (ds : List Doc), (∀ d ∈ ds, d = Doc.Hardline) →
      2 ≤ ds.length → 0 < p.max_width →
      count_text_length p (.Concat ds) > p.max_width) ∧
    (∀ (p : Printer) (d : Doc) (ind : Nat) (rest : List PrintItem)
        (out : List Char) (cll idl : Nat) (sc : List Char) (jb : List Nat),
      count_text_length p d > p.max_width →
      step p ⟨⟨.Group d, ind, none, 0⟩ :: rest, out, cll, idl, sc, jb⟩ =
        some ⟨⟨d, ind, none, ind⟩ :: ⟨.Hardline, ind - p.indent, none, 0⟩ :: rest,
          out, cll, ind, sc, jb⟩) := by
  constructor
  · intro p ds hall hlen hpos
    have hgo : ∀ ds : List Doc, (∀ d ∈ ds, d = Doc.Hardline) →
        count_text_length.go p ds = ds.length * p.max_width := by
      intro ds hall
      induction ds with
      | nil => simp [count_text_length.go]
      | cons d rest ih =>
        have hd : d = Doc.Hardline := hall d (by simp)
        have := ih (fun x hx => hall x (by simp [hx]))
        subst hd
        simp [count_text_length.go, this, count_text_length, Nat.succ_mul,
          Nat.add_comm]
    have : count_text_length p (.Concat ds) = ds.length * p.max_width := hgo ds hall
    rw [this]
    calc p.max_width < 2 * p.max_width := by omega
    _ ≤ ds.length * p.max_width := Nat.mul_le_mul_right _ hlen
  · intro p d ind rest out cll idl sc jb h
    simp [step, pre_state, dispatch, h]

/-! ## Claim C7 (estimate of concatenations) -/

/-- **C7, counterexample.** The public `concat` constructor turns a
two-element list into `DoubleDoc`, but `count_text_length` has no arm for
`DoubleDoc`/`TripleDoc`: they fall to the catch-all `_ => 0`, so the
estimate of `concat(["ab", "cd"])` is 0, not the children's sum 4. -/
theorem c7_counterexample :
    count_text_length PRINTER (concat_def [from_str "ab", from_str "cd"]) ≠
      count_text_length PRINTER (from_str "ab") +
        count_text_length PRINTER (from_str "cd") := by
  decide

/-- **C7, amended.** The estimate of the `Concat` representation is the
sum of the children's estimates, but the `DoubleDoc`/`TripleDoc` forms
produced by the public `concat` constructor for 2 or 3 children are
estimated by the catch-all arm as 0, not as the sum. -/
theorem c7_amended :
    (∀ (p : Printer) (xs : List Doc),
      count_text_length p (.Concat xs) = (xs.map (count_text_length p)).sum) ∧
    (∀ a b : Doc, concat_def [a, b] = .DoubleDoc a b) ∧
    (∀ (p : Printer) (a b : Doc), count_text_length p (.DoubleDoc a b) = 0) ∧
    (∀ a b c : Doc, concat_def [a, b, c] = .TripleDoc a b c) ∧
    (∀ (p : Printer) (a b c : Doc), count_text_length p (.TripleDoc a b c) = 0) := by
  exact ⟨fun p xs => count_go_eq_sum p xs, fun a b => rfl, fun p a b => rfl,
    fun a b c => rfl, fun p a b c => rfl⟩

/-! ## Claim C8 (vector rendering) -/

/-- **C8.** The empty sequence renders as the literal `[]`, and the
sequence `{1, 2, 3}` under the default printer renders as `[1, 2, 3]` on
one line with no newline characters. -/
theorem c8 :
    pprint (doc_of_vec_i32 []) none = "[]" ∧
    pprint (doc_of_vec_i32 [1, 2, 3]) none = "[1, 2, 3]" ∧
    '\n' ∉ (pprint (doc_of_vec_i32 [1, 2, 3]) none).data := by
  have hmain : pprint (doc_of_vec_i32 [1, 2, 3]) none = "[1, 2, 3]" := by
    have t1 : step PRINTER (⟨[⟨(.Indent (.TripleDoc (.Char '[') (.Group (.SmartJoin (.DoubleChar ',' ' ') [(.iDoc 32 1), (.iDoc 32 2), (.iDoc 32 3)])) (.Char ']'))), 0, none, 0⟩], [], 0, 0, [], []⟩ : PrintState) =
        some (⟨[⟨(.Char '['), 4, none, 0⟩, ⟨(.Group (.SmartJoin (.DoubleChar ',' ' ') [(.iDoc 32 1), (.iDoc 32 2), (.iDoc 32 3)])), 4, none, 0⟩, ⟨(.Char ']'), 4, none, 0⟩], [], 0, 4, [], []⟩ : PrintState) := rfl
    have t2 : step PRINTER (⟨[⟨(.Char '['), 4, none, 0⟩, ⟨(.Group (.SmartJoin (.DoubleChar ',' ' ') [(.iDoc 32 1), (.iDoc 32 2), (.iDoc 32 3)])), 4, none, 0⟩, ⟨(.Char ']'), 4, none, 0⟩], [], 0, 4, [], []⟩ : PrintState) =
        some (⟨[⟨(.Group (.SmartJoin (.DoubleChar ',' ' ') [(.iDoc 32 1), (.iDoc 32 2), (.iDoc 32 3)])), 4, none, 0⟩, ⟨(.Char ']'), 4, none, 0⟩], ['['], 1, 4, [], []⟩ : PrintState) := rfl
    have t3 : step PRINTER (⟨[⟨(.Group (.SmartJoin (.DoubleChar ',' ' ') [(.iDoc 32 1), (.iDoc 32 2), (.iDoc 32 3)])), 4, none, 0⟩, ⟨(.Char ']'), 4, none, 0⟩], ['['], 1, 4, [], []⟩ : PrintState) =
        some (⟨[⟨(.SmartJoin (.DoubleChar ',' ' ') [(.iDoc 32 1), (.iDoc 32 2), (.iDoc 32 3)]), 4, none, 0⟩, ⟨(.Char ']'), 4, none, 0⟩], ['['], 1, 4, [], []⟩ : PrintState) := rfl
    have t4 : step PRINTER (⟨[⟨(.SmartJoin (.DoubleChar ',' ' ') [(.iDoc 32 1), (.iDoc 32 2), (.iDoc 32 3)]), 4, none, 0⟩, ⟨(.Char ']'), 4, none, 0⟩], ['['], 1, 4, [], []⟩ : PrintState) =
        some (⟨[⟨(.iDoc 32 1), 4, none, 0⟩, ⟨(.iDoc 32 2), 4, (some (.DoubleChar ',' ' ')), 0⟩, ⟨(.iDoc 32 3), 4, (some (.DoubleChar ',' ' ')), 0⟩, ⟨(.Char ']'), 4, none, 0⟩], ['['], 1, 4, [], [3]⟩ : PrintState) := rfl
    have t5 : step PRINTER (⟨[⟨(.iDoc 32 1), 4, none, 0⟩, ⟨(.iDoc 32 2), 4, (some (.DoubleChar ',' ' ')), 0⟩, ⟨(.iDoc 32 3), 4, (some (.DoubleChar ',' ' ')), 0⟩, ⟨(.Char ']'), 4, none, 0⟩], ['['], 1, 4, [], [3]⟩ : PrintState) =
        some (⟨[⟨(.iDoc 32 2), 4, (some (.DoubleChar ',' ' ')), 0⟩, ⟨(.iDoc 32 3), 4, (some (.DoubleChar ',' ' ')), 0⟩, ⟨(.Char ']'), 4, none, 0⟩], ['[', '1'], 2, 4, [], [3]⟩ : PrintState) := rfl
    have t6 : step PRINTER (⟨[⟨(.iDoc 32 2), 4, (some (.DoubleChar ',' ' ')), 0⟩, ⟨(.iDoc 32 3), 4, (some (.DoubleChar ',' ' ')), 0⟩, ⟨(.Char ']'), 4, none, 0⟩], ['[', '1'], 2, 4, [], [3]⟩ : PrintState) =
        some (⟨[⟨(.iDoc 32 3), 4, (some (.DoubleChar ',' ' ')), 0⟩, ⟨(.Char ']'), 4, none, 0⟩], ['[', '1', ',', ' ', '2'], 5, 4, [], [3]⟩ : PrintState) := rfl
    have t7 : step PRINTER (⟨[⟨(.iDoc 32 3), 4, (some (.DoubleChar ',' ' ')), 0⟩, ⟨(.Char ']'), 4, none, 0⟩], ['[', '1', ',', ' ', '2'], 5, 4, [], [3]⟩ : PrintState) =
        some (⟨[⟨(.Char ']'), 4, none, 0⟩], ['[', '1', ',', ' ', '2', ',', ' ', '3'], 8, 4, [], [3]⟩ : PrintState) := rfl
    have t8 : step PRINTER (⟨[⟨(.Char ']'), 4, none, 0⟩], ['[', '1', ',', ' ', '2', ',', ' ', '3'], 8, 4, [], [3]⟩ : PrintState) =
        some (⟨[], ['[', '1', ',', ' ', '2', ',', ' ', '3', ']'], 9, 4, [], [3]⟩ : PrintState) := rfl
    have hrun : run PRINTER 13 (⟨[⟨(.Indent (.TripleDoc (.Char '[') (.Group (.SmartJoin (.DoubleChar ',' ' ') [(.iDoc 32 1), (.iDoc 32 2), (.iDoc 32 3)])) (.Char ']'))), 0, none, 0⟩], [], 0, 0, [], []⟩ : PrintState) =
        (⟨[], ['[', '1', ',', ' ', '2', ',', ' ', '3', ']'], 9, 4, [], [3]⟩ : PrintState) :=
      run_step_lit t1 (run_step_lit t2 (run_step_lit t3 (run_step_lit t4 (run_step_lit t5 (run_step_lit t6 (run_step_lit t7 (run_step_lit t8 (run_empty rfl))))))))
    show String.mk (run PRINTER 13 (⟨[⟨(.Indent (.TripleDoc (.Char '[') (.Group (.SmartJoin (.DoubleChar ',' ' ') [(.iDoc 32 1), (.iDoc 32 2), (.iDoc 32 3)])) (.Char ']'))), 0, none, 0⟩], [], 0, 0, [], []⟩ : PrintState)).output = _
    rw [hrun]
  exact ⟨by decide, hmain, by rw [hmain]; decide⟩

/-- **C6, amended, witness.** -/
theorem c6_amended_witness :
    count_text_length PRINTER (.Concat [.Hardline, .Hardline]) > PRINTER.max_width ∧
    step PRINTER ⟨[⟨.Group (.Concat [.Hardline, .Hardline]), 4, none, 0⟩], [], 0, 0, [], []⟩ =
      some ⟨[⟨.Concat [.Hardline, .Hardline], 4, none, 4⟩, ⟨.Hardline, 0, none, 0⟩],
        [], 0, 4, [], []⟩ :=
  ⟨c6_amended.1 PRINTER [.Hardline, .Hardline] (by simp) (by decide) (by decide),
   c6_amended.2 PRINTER (.Concat [.Hardline, .Hardline]) 4 [] [] 0 0 [] [] (by decide)⟩

/-! ## Claim C10 (no SmartJoin, empty break set) -/

/-- **C10.** If the printed document contains no `SmartJoin` node, the
engine's stored smart-join break set stays empty at every iteration of
the print loop (it is cleared and refilled only when a `SmartJoin` is
processed), and with an empty break set `handle_join` pushes every item
of a plain `Join` with `break_left = 0`: the join emits exactly its
items, with the separator before each item but the first (as the `left`
payload when literal, as a pushed separator entry otherwise), and never
inserts a hard line break of its own. -/
theorem c10 (D : Doc) (p : Printer) (h : smart_join_free D = true) :
    (∀ k : Nat, (run p k (init_state D)).join_breaks = []) ∧
    (∀ (sep : Doc) (lit : Bool) (ind i : Nat) (docs : List Doc),
      ∀ it ∈ join_items sep lit ind [] i docs, it.break_left = 0) := by
  constructor
  · have main : ∀ (k : Nat) (s : PrintState),
        (∀ it ∈ s.stack, smart_join_free it.doc = true) → s.join_breaks = [] →
        (∀ it ∈ (run p k s).stack, smart_join_free it.doc = true) ∧
          (run p k s).join_breaks = [] := by
      intro k
      induction k with
      | zero => intro s h1 h2; exact ⟨h1, h2⟩
      | succ k ih =>
        intro s h1 h2
        cases hs : step p s with
        | none => simp only [run, hs]; exact ⟨h1, h2⟩
        | some s2 =>
          obtain ⟨h3, h4⟩ := step_preserves_sjfree hs h1 h2
          simp only [run, hs]
          exact ih s2 h3 h4
    intro k
    refine (main k (init_state D) ?_ rfl).2
    intro it hit
    simp [init_state] at hit
    rw [hit]
    exact h
  · intro sep lit ind i docs it hit
    exact join_items_break_left_nil hit

/-- **C10, witness.** -/
theorem c10_witness :
    (run PRINTER 3
      (init_state (.Join (from_str ", ") [from_str "ab", from_str "cd"]))).join_breaks = [] ∧
    (⟨.Char 'w', 0, none, 0⟩ : PrintItem).break_left = 0 :=
  ⟨(c10 (.Join (from_str ", ") [from_str "ab", from_str "cd"]) PRINTER (by decide)).1 3,
   (c10 .Null PRINTER (by decide)).2 (.Char ',') true 0 0 [.Char 'w']
     ⟨.Char 'w', 0, none, 0⟩ (List.mem_cons_self _ _)⟩

/-! ## Claim C9 (justifier break positions partition the items) -/

theorem inner_go_j_bound (s M i : Nat) : ∀ (ls : List Nat) (ms : List Score)
    (j ll : Nat) (best : Score), i ≤ j → i < best.j → best.j ≤ j + ls.length →
    i < (inner_go s M i j ll ls ms best).j ∧
      (inner_go s M i j ll ls ms best).j ≤ j + ls.length := by
  intro ls
  induction ls with
  | nil =>
    intro ms j ll best h1 h2 h3
    simp only [List.length_nil, Nat.add_zero] at h3 ⊢
    cases ms <;> simp only [inner_go] <;> exact ⟨h2, h3⟩
  | cons l ls' ih =>
    intro ms j ll best h1 h2 h3
    simp only [List.length_cons] at h3 ⊢
    cases ms with
    | nil =>
      simp only [inner_go]
      exact ⟨h2, by omega⟩
    | cons next ms' =>
      simp only [inner_go]
      generalize (if j > i then s else 0) = sadd
      have key : ∀ b' : Score, i < b'.j → b'.j ≤ j + 1 + ls'.length →
          i < (if min (ll + l + sadd) M ≥ M then b'
              else inner_go s M i (j + 1) (min (ll + l + sadd) M) ls' ms' b').j ∧
            (if min (ll + l + sadd) M ≥ M then b'
              else inner_go s M i (j + 1) (min (ll + l + sadd) M) ls' ms' b').j ≤
              j + 1 + ls'.length := by
        intro b' hb1 hb2
        split
        · exact ⟨hb1, hb2⟩
        · exact ih ms' (j + 1) _ b' (by omega) hb1 hb2
      have hB : i < (if (M - min (ll + l + sadd) M) ^ 3 +
              next.badness < best.badness then
            (⟨(M - min (ll + l + sadd) M) ^ 3 + next.badness, j + 1⟩ : Score)
          else best).j ∧
          (if (M - min (ll + l + sadd) M) ^ 3 +
              next.badness < best.badness then
            (⟨(M - min (ll + l + sadd) M) ^ 3 + next.badness, j + 1⟩ : Score)
          else best).j ≤ j + 1 + ls'.length := by
        by_cases hupd : (M - min (ll + l + sadd) M) ^ 3 +
            next.badness < best.badness
        · rw [if_pos hupd]
          have e1 : i < j + 1 := by omega
          have e2 : j + 1 ≤ j + 1 + ls'.length := by omega
          exact ⟨e1, e2⟩
        · rw [if_neg hupd]
          exact ⟨h2, by omega⟩
      have := key _ hB.1 hB.2
      omega

theorem memo_j_bound (s M : Nat) : ∀ (lens : List Nat) (i k : Nat),
    k < lens.length →
    i + k < ((memo_list s M lens i).getD k ⟨0, 0⟩).j ∧
      ((memo_list s M lens i).getD k ⟨0, 0⟩).j ≤ i + lens.length := by
  intro lens
  induction lens with
  | nil => intro i k h; simp at h
  | cons l rest ih =>
    intro i k h
    cases k with
    | zero =>
      simp only [memo_list, List.getD_cons_zero]
      have hb := inner_go_j_bound s M i (l :: rest) (memo_list s M rest (i + 1)) i 0
        ⟨USIZE_MAX, i + (l :: rest).length⟩ (Nat.le_refl i)
        (by simp) (by simp)
      simp only [List.length_cons] at hb ⊢
      omega
    | succ k' =>
      simp only [memo_list, List.getD_cons_succ]
      have := ih (i + 1) k' (by simpa using h)
      simp only [List.length_cons]
      omega

theorem valid_from_chain (n : Nat) : ∀ (bs : List Nat) (i : Nat),
    valid_from n i bs = true → List.Chain' (· < ·) (i :: bs) := by
  intro bs
  induction bs with
  | nil => intro i h; simp
  | cons b rest ih =>
    intro i h
    simp only [valid_from, Bool.and_eq_true, decide_eq_true_eq] at h
    exact List.Chain'.cons h.1.1 (ih b h.2)

theorem valid_from_last (n : Nat) : ∀ (bs : List Nat) (i : Nat), bs ≠ [] →
    valid_from n i bs = true → bs.getLast? = some n := by
  intro bs
  induction bs with
  | nil => intro i h; exact absurd rfl h
  | cons b rest ih =>
    intro i hne h
    simp only [valid_from, Bool.and_eq_true, decide_eq_true_eq] at h
    cases rest with
    | nil =>
      simp only [valid_from, decide_eq_true_eq] at h
      simp [h.2]
    | cons r rrest =>
      rw [List.getLast?_cons_cons]
      exact ih b (by simp) h.2

theorem breaks_chain_valid (s M : Nat) (lens : List Nat) :
    ∀ (fuel i : Nat), i < lens.length → lens.length - i ≤ fuel →
    valid_from lens.length i
      (breaks_chain (memo_list s M lens 0) lens.length fuel i) = true := by
  intro fuel
  induction fuel with
  | zero => intro i h1 h2; omega
  | succ fuel ih =>
    intro i h1 h2
    have hj := memo_j_bound s M lens 0 i h1
    simp only [Nat.zero_add] at hj
    simp only [breaks_chain, if_pos h1]
    by_cases hn : ((memo_list s M lens 0).getD i ⟨0, 0⟩).j < lens.length
    · have hrec := ih ((memo_list s M lens 0).getD i ⟨0, 0⟩).j hn (by omega)
      simp only [valid_from, Bool.and_eq_true, decide_eq_true_eq]
      exact ⟨⟨hj.1, by omega⟩, hrec⟩
    · have hje : ((memo_list s M lens 0).getD i ⟨0, 0⟩).j = lens.length := by omega
      rw [hje]
      cases fuel with
      | zero =>
        simp [breaks_chain, valid_from, hj.1, hje, h1]
      | succ fuel =>
        simp [breaks_chain, valid_from, hj.1, hje, h1]

/-- **C9.** For a non-empty item list, the break positions returned by
`text_justify` are strictly increasing, end exactly at `n`, and together
with the starting position 0 partition `[0..n)` into consecutive
non-empty lines with no overlap and no gap (`valid_from` is precisely
that partition property). -/
theorem c9 (sep_len : Nat) (lens : List Nat) (max_line : Nat)
    (h : 1 ≤ lens.length) :
    valid_from lens.length 0 (text_justify sep_len lens max_line) = true ∧
    List.Chain' (· < ·) (0 :: text_justify sep_len lens max_line) ∧
    (text_justify sep_len lens max_line).getLast? = some lens.length := by
  have hv : valid_from lens.length 0 (text_justify sep_len lens max_line) = true := by
    have := breaks_chain_valid sep_len max_line lens lens.length 0 (by omega) (by omega)
    exact this
  refine ⟨hv, valid_from_chain _ _ _ hv, ?_⟩
  have hne : text_justify sep_len lens max_line ≠ [] := by
    intro he
    rw [he] at hv
    simp [valid_from] at hv
    omega
  exact valid_from_last _ _ _ hne hv

/-- **C9, witness.** -/
theorem c9_witness :
    valid_from 3 0 (text_justify 4 [1, 1, 1] 20) = true ∧
    List.Chain' (· < ·) (0 :: text_justify 4 [1, 1, 1] 20) ∧
    (text_justify 4 [1, 1, 1] 20).getLast? = some 3 :=
  c9 4 [1, 1, 1] 20 (by decide)

/-! ## Claim C3 (justifier optimality over admissible break sets) -/

theorem sum_take_mono (l : List Nat) (a b : Nat) (hab : a ≤ b) :
    (l.take a).sum ≤ (l.take b).sum := by
  have e : b = a + (b - a) := by omega
  rw [e, List.take_add, List.sum_append]
  exact Nat.le_add_right _ _

theorem line_len_self (s : Nat) (lens : List Nat) (i : Nat) : line_len s lens i i = 0 := by
  simp [line_len, lens_sum]

theorem line_len_mono (s : Nat) (lens : List Nat) (i j k : Nat) (hjk : j ≤ k) :
    line_len s lens i j ≤ line_len s lens i k := by
  simp only [line_len, lens_sum]
  have h1 := sum_take_mono (lens.drop i) (j - i) (k - i) (by omega)
  have h2 : s * (j - i - 1) ≤ s * (k - i - 1) :=
    Nat.mul_le_mul (Nat.le_refl s) (by omega)
  omega

theorem line_len_succ (s : Nat) (lens : List Nat) (i j l : Nat) (rest : List Nat)
    (h1 : i ≤ j) (hd : lens.drop j = l :: rest) :
    line_len s lens i (j + 1) =
      line_len s lens i j + l + (if j > i then s else 0) := by
  have e1 : j + 1 - i = (j - i) + 1 := by omega
  have e2 : i + (j - i) = j := by omega
  have hsum : lens_sum lens i (j + 1) = lens_sum lens i j + l := by
    simp only [lens_sum]
    rw [e1, List.take_add, List.sum_append, List.drop_drop, e2, hd]
    simp
  simp only [line_len, hsum]
  by_cases hij : j > i
  · rw [if_pos hij]
    have e3 : j + 1 - i - 1 = (j - i - 1) + 1 := by omega
    rw [e3, Nat.mul_succ]
    omega
  · rw [if_neg hij]
    have e3 : j + 1 - i - 1 = 0 := by omega
    have e4 : j - i - 1 = 0 := by omega
    rw [e3, e4]
    omega

theorem score_update_le_cand (cand j' : Nat) (best : Score) :
    (if cand < best.badness then (⟨cand, j'⟩ : Score) else best).badness ≤ cand := by
  by_cases h : cand < best.badness
  · rw [if_pos h]
  · rw [if_neg h]
    omega

theorem inner_go_badness_le (s M i : Nat) : ∀ (ls : List Nat) (ms : List Score)
    (j ll : Nat) (best : Score),
    (inner_go s M i j ll ls ms best).badness ≤ best.badness := by
  intro ls
  induction ls with
  | nil => intro ms j ll best; cases ms <;> simp [inner_go]
  | cons l ls' ih =>
    intro ms j ll best
    cases ms with
    | nil => simp [inner_go]
    | cons next ms' =>
      simp only [inner_go]
      generalize (if j > i then s else 0) = sadd
      have hb' : (if (M - min (ll + l + sadd) M) ^ 3 + next.badness < best.badness
          then (⟨(M - min (ll + l + sadd) M) ^ 3 + next.badness, j + 1⟩ : Score)
          else best).badness ≤ best.badness := by
        by_cases hc : (M - min (ll + l + sadd) M) ^ 3 + next.badness < best.badness
        · rw [if_pos hc]
          exact Nat.le_of_lt hc
        · rw [if_neg hc]
      by_cases hstop : min (ll + l + sadd) M ≥ M
      · rw [if_pos hstop]
        exact hb'
      · rw [if_neg hstop]
        exact le_trans (ih ms' (j + 1) _ _) hb'

theorem memo_list_drop_eq (s M : Nat) (lens : List Nat) (k : Nat) (hk : k < lens.length) :
    memo_list s M (lens.drop k) k =
      (memo_list s M (lens.drop k) k).getD 0 ⟨0, 0⟩ ::
        memo_list s M (lens.drop (k + 1)) (k + 1) := by
  conv_lhs => rw [List.drop_eq_getElem_cons hk]
  conv_rhs => rw [List.drop_eq_getElem_cons hk]
  simp only [memo_list, List.getD_cons_zero]

theorem memo_list_drop_cons (s M : Nat) (lens : List Nat) (k : Nat) (hk : k ≤ lens.length) :
    ∃ tl, memo_list s M (lens.drop k) k = memo_row s M lens k :: tl ∧
      (k < lens.length → tl = memo_list s M (lens.drop (k + 1)) (k + 1)) := by
  rcases Nat.lt_or_ge k lens.length with h | h
  · refine ⟨memo_list s M (lens.drop (k + 1)) (k + 1), ?_, fun _ => rfl⟩
    simp only [memo_row]
    exact memo_list_drop_eq s M lens k h
  · have hnil : lens.drop k = [] := List.drop_eq_nil_of_le h
    refine ⟨[], ?_, fun hc => absurd hc (by omega)⟩
    simp only [memo_row, hnil, memo_list, List.getD_cons_zero]

theorem memo_row_length_le (s M : Nat) (lens : List Nat) (i : Nat) (h : lens.length ≤ i) :
    memo_row s M lens i = ⟨0, 0⟩ := by
  simp only [memo_row, List.drop_eq_nil_of_le h, memo_list, List.getD_cons_zero]

theorem memo_row_lt (s M : Nat) (lens : List Nat) (i : Nat) (h : i < lens.length) :
    memo_row s M lens i =
      inner_go s M i i 0 (lens.drop i)
        (memo_list s M (lens.drop (i + 1)) (i + 1)) ⟨USIZE_MAX, lens.length⟩ := by
  simp only [memo_row]
  conv_lhs => rw [List.drop_eq_getElem_cons h]
  simp only [memo_list, List.getD_cons_zero]
  rw [← List.drop_eq_getElem_cons h]
  rw [(by rw [List.length_drop]; omega : i + (lens.drop i).length = lens.length)]

theorem memo_getD_drop (s M : Nat) : ∀ (ls : List Nat) (i k : Nat),
    (memo_list s M ls i).getD k ⟨0, 0⟩ =
      (memo_list s M (ls.drop k) (i + k)).getD 0 ⟨0, 0⟩ := by
  intro ls
  induction ls with
  | nil =>
    intro i k
    cases k with
    | zero => simp [memo_list]
    | succ k' => simp [memo_list, List.getD_cons_succ, List.getD_nil]
  | cons l rest ih =>
    intro i k
    cases k with
    | zero => simp
    | succ k' =>
      simp only [memo_list, List.getD_cons_succ, List.drop_succ_cons]
      rw [ih (i + 1) k']
      rw [(by omega : i + 1 + k' = i + (k' + 1))]

theorem memo_getD_row (s M : Nat) (lens : List Nat) (i : Nat) :
    (memo_list s M lens 0).getD i ⟨0, 0⟩ = memo_row s M lens i := by
  rw [memo_getD_drop]
  simp [memo_row]

theorem inner_go_le_cand (s M : Nat) (lens : List Nat) (i : Nat) :
    ∀ (ls : List Nat) (j ll : Nat) (best : Score) (b : Nat),
    i ≤ j → j < b → b ≤ lens.length → ls = lens.drop j → ll = line_len s lens i j →
    (b = j + 1 ∨ line_len s lens i (b - 1) < M) →
    (inner_go s M i j ll ls (memo_list s M (lens.drop (j + 1)) (j + 1)) best).badness ≤
      line_badness s M lens i b + (memo_row s M lens b).badness := by
  intro ls
  induction ls with
  | nil =>
    intro j ll best b h1 h2 h3 heq hll hdisj
    have hlen := congrArg List.length heq
    simp [List.length_drop] at hlen
    omega
  | cons l ls' ih =>
    intro j ll best b h1 h2 h3 heq hll hdisj
    subst hll
    have hjn : j < lens.length := by omega
    have hdd : lens.drop (j + 1) = ls' := by
      rw [← List.tail_drop, ← heq]
      rfl
    obtain ⟨tl, htl, htl2⟩ := memo_list_drop_cons s M lens (j + 1) (by omega)
    have hstep := line_len_succ s lens i j l ls' h1 heq.symm
    rw [htl]
    simp only [inner_go]
    rw [← hstep]
    by_cases hbj : b = j + 1
    · subst hbj
      simp only [line_badness]
      by_cases hstop : min (line_len s lens i (j + 1)) M ≥ M
      · rw [if_pos hstop]
        exact score_update_le_cand _ _ _
      · rw [if_neg hstop]
        exact le_trans (inner_go_badness_le s M i ls' tl (j + 1) _ _)
          (score_update_le_cand _ _ _)
    · have hlt : line_len s lens i (b - 1) < M := hdisj.resolve_left hbj
      have hlt2 : line_len s lens i (j + 1) < M :=
        lt_of_le_of_lt (line_len_mono s lens i (j + 1) (b - 1) (by omega)) hlt
      have hmin : min (line_len s lens i (j + 1)) M = line_len s lens i (j + 1) :=
        min_eq_left (Nat.le_of_lt hlt2)
      rw [hmin]
      rw [if_neg (by omega : ¬ line_len s lens i (j + 1) ≥ M)]
      rw [htl2 (by omega)]
      exact ih (j + 1) (line_len s lens i (j + 1)) _ b (by omega) (by omega) h3
        hdd.symm rfl (Or.inr hlt)

theorem inner_go_shape (s M : Nat) (lens : List Nat) (i : Nat) :
    ∀ (ls : List Nat) (j ll : Nat) (best : Score),
    i ≤ j → ls = lens.drop j → ll = min (line_len s lens i j) M →
    row_inv s M lens i best →
    row_inv s M lens i
      (inner_go s M i j ll ls (memo_list s M (lens.drop (j + 1)) (j + 1)) best) := by
  intro ls
  induction ls with
  | nil =>
    intro j ll best h1 heq hll hinv
    simp only [inner_go]
    exact hinv
  | cons l ls' ih =>
    intro j ll best h1 heq hll hinv
    subst hll
    have hlen := congrArg List.length heq
    simp [List.length_drop] at hlen
    have hjn : j < lens.length := by omega
    have hdd : lens.drop (j + 1) = ls' := by
      rw [← List.tail_drop, ← heq]
      rfl
    obtain ⟨tl, htl, htl2⟩ := memo_list_drop_cons s M lens (j + 1) (by omega)
    have hstep := line_len_succ s lens i j l ls' h1 heq.symm
    have hmm : min (min (line_len s lens i j) M + l + (if j > i then s else 0)) M =
        min (line_len s lens i (j + 1)) M := by
      by_cases hij : j > i
      · rw [if_pos hij] at hstep
        rw [if_pos hij]
        omega
      · rw [if_neg hij] at hstep
        rw [if_neg hij]
        omega
    rw [htl]
    simp only [inner_go]
    rw [hmm]
    have hinv' : row_inv s M lens i
        (if (M - min (line_len s lens i (j + 1)) M) ^ 3 +
            (memo_row s M lens (j + 1)).badness < best.badness
         then (⟨(M - min (line_len s lens i (j + 1)) M) ^ 3 +
            (memo_row s M lens (j + 1)).badness, j + 1⟩ : Score)
         else best) := by
      split
      · right
        exact ⟨j + 1, by omega, by omega, rfl, rfl⟩
      · exact hinv
    by_cases hstop : min (line_len s lens i (j + 1)) M ≥ M
    · rw [if_pos hstop]
      exact hinv'
    · rw [if_neg hstop]
      by_cases hj1 : j + 1 < lens.length
      · rw [htl2 hj1]
        exact ih (j + 1) _ _ (by omega) hdd.symm rfl hinv'
      · have hnil : ls' = [] := by
          rw [← hdd]
          exact List.drop_eq_nil_of_le (by omega)
        rw [hnil]
        simp only [inner_go]
        exact hinv'

theorem memo_row_badness_le (s M : Nat) (lens : List Nat) :
    ∀ (d i : Nat), lens.length - i ≤ d →
    (memo_row s M lens i).badness ≤ (lens.length - i) * M ^ 3 := by
  intro d
  induction d with
  | zero =>
    intro i h1
    rw [memo_row_length_le s M lens i (by omega)]
    simp
  | succ d ih =>
    intro i h1
    by_cases hin : i < lens.length
    · rw [memo_row_lt s M lens i hin]
      obtain ⟨l, rest, hd⟩ : ∃ l rest, lens.drop i = l :: rest := by
        cases hcase : lens.drop i with
        | nil =>
          have hlen := congrArg List.length hcase
          simp [List.length_drop] at hlen
          omega
        | cons a b => exact ⟨a, b, rfl⟩
      obtain ⟨tl, htl, _⟩ := memo_list_drop_cons s M lens (i + 1) (by omega)
      rw [hd, htl]
      simp only [inner_go]
      have hrec : (memo_row s M lens (i + 1)).badness ≤
          (lens.length - (i + 1)) * M ^ 3 := ih (i + 1) (by omega)
      have hpow : (M - min (0 + l + (if i > i then s else 0)) M) ^ 3 ≤ M ^ 3 :=
        Nat.pow_le_pow_left (Nat.sub_le _ _) 3
      have hcand : (M - min (0 + l + (if i > i then s else 0)) M) ^ 3 +
          (memo_row s M lens (i + 1)).badness ≤ (lens.length - i) * M ^ 3 := by
        calc (M - min (0 + l + (if i > i then s else 0)) M) ^ 3 +
            (memo_row s M lens (i + 1)).badness
            ≤ M ^ 3 + (lens.length - (i + 1)) * M ^ 3 := Nat.add_le_add hpow hrec
          _ = (lens.length - (i + 1) + 1) * M ^ 3 := by ring
          _ = (lens.length - i) * M ^ 3 := by
              rw [(by omega : lens.length - (i + 1) + 1 = lens.length - i)]
      have hupd := score_update_le_cand
        ((M - min (0 + l + (if i > i then s else 0)) M) ^ 3 +
          (memo_row s M lens (i + 1)).badness) (i + 1)
        ⟨USIZE_MAX, lens.length⟩
      by_cases hstop : min (0 + l + (if i > i then s else 0)) M ≥ M
      · rw [if_pos hstop]
        exact le_trans hupd hcand
      · rw [if_neg hstop]
        exact le_trans (le_trans (inner_go_badness_le s M i _ _ _ _ _) hupd) hcand
    · rw [memo_row_length_le s M lens i (by omega)]
      simp

theorem memo_row_eq_line (s M : Nat) (lens : List Nat)
    (hg : lens.length * M ^ 3 < USIZE_MAX) (i : Nat) (hi : i < lens.length) :
    ∃ j', i < j' ∧ j' ≤ lens.length ∧ (memo_row s M lens i).j = j' ∧
      (memo_row s M lens i).badness =
        line_badness s M lens i j' + (memo_row s M lens j').badness := by
  have hshape := inner_go_shape s M lens i (lens.drop i) i 0
      ⟨USIZE_MAX, lens.length⟩ (Nat.le_refl i) rfl
      (by rw [line_len_self]; simp) (Or.inl rfl)
  rw [← memo_row_lt s M lens i hi] at hshape
  rcases hshape with hs | hs
  · exfalso
    have hb := memo_row_badness_le s M lens (lens.length - i) i (Nat.le_refl _)
    have hle : (lens.length - i) * M ^ 3 ≤ lens.length * M ^ 3 :=
      Nat.mul_le_mul_right _ (Nat.sub_le _ _)
    omega
  · exact hs

theorem breaks_chain_total (s M : Nat) (lens : List Nat)
    (hg : lens.length * M ^ 3 < USIZE_MAX) :
    ∀ (fuel i : Nat), i ≤ lens.length → lens.length - i ≤ fuel →
    total_badness s M lens i
        (breaks_chain (memo_list s M lens 0) lens.length fuel i) =
      (memo_row s M lens i).badness := by
  intro fuel
  induction fuel with
  | zero =>
    intro i h1 h2
    have hieq : i = lens.length := by omega
    subst hieq
    simp [breaks_chain, total_badness,
      memo_row_length_le s M lens lens.length (Nat.le_refl _)]
  | succ fuel ih =>
    intro i h1 h2
    by_cases hin : i < lens.length
    · obtain ⟨j', hj1, hj2, hj3, hj4⟩ := memo_row_eq_line s M lens hg i hin
      simp only [breaks_chain, if_pos hin]
      rw [memo_getD_row s M lens i, hj3]
      simp only [total_badness]
      rw [ih j' hj2 (by omega)]
      exact hj4.symm
    · have hieq : i = lens.length := by omega
      subst hieq
      simp [breaks_chain, total_badness,
        memo_row_length_le s M lens lens.length (Nat.le_refl _)]

theorem memo_row_le_admissible (s M : Nat) (lens : List Nat) :
    ∀ (bs : List Nat) (i : Nat),
    admissible_from s M lens.length lens i bs = true →
    (memo_row s M lens i).badness ≤ total_badness s M lens i bs := by
  intro bs
  induction bs with
  | nil =>
    intro i h
    simp only [admissible_from, decide_eq_true_eq] at h
    subst h
    simp [total_badness, memo_row_length_le s M lens lens.length (Nat.le_refl _)]
  | cons b bs' ih =>
    intro i h
    simp only [admissible_from, Bool.and_eq_true, Bool.or_eq_true,
      decide_eq_true_eq] at h
    obtain ⟨⟨⟨hib, hbn⟩, hor⟩, hrec⟩ := h
    have hin : i < lens.length := by omega
    simp only [total_badness]
    have hkey : (memo_row s M lens i).badness ≤
        line_badness s M lens i b + (memo_row s M lens b).badness := by
      rw [memo_row_lt s M lens i hin]
      exact inner_go_le_cand s M lens i (lens.drop i) i 0 ⟨USIZE_MAX, lens.length⟩ b
        (Nat.le_refl i) hib hbn rfl (line_len_self s lens i).symm hor
    exact le_trans hkey (Nat.add_le_add_left (ih b hrec) _)

/-- **C3, amended.** The break set returned by `text_justify` has total
badness at most that of every *admissible* break set: one whose every
line either holds a single item or has all but its final item spanning
strictly less than `max_width` (the source's inner loop stops scanning a
line as soon as the running clamped length reaches `max_width`, so wider
lines are never candidates; `c3_counterexample` shows full optimality
over all break sets fails).  The guard hypothesis keeps every badness
total below `usize::MAX`, where the source's arithmetic would overflow
and its sentinel would be meaningless. -/
theorem c3_amended (sep_len : Nat) (lens : List Nat) (max_line : Nat) (bs : List Nat)
    (hg : lens.length * max_line ^ 3 < USIZE_MAX)
    (hadm : admissible_from sep_len max_line lens.length lens 0 bs = true) :
    total_badness sep_len max_line lens 0 (text_justify sep_len lens max_line) ≤
      total_badness sep_len max_line lens 0 bs := by
  have hach := breaks_chain_total sep_len max_line lens hg lens.length 0
    (by omega) (by omega)
  have hlow := memo_row_le_admissible sep_len max_line lens bs 0 hadm
  simp only [text_justify]
  rw [hach]
  exact hlow

/-- **C3, amended: witness.** -/
theorem c3_amended_witness :
    (3 : Nat) * 3 ^ 3 < USIZE_MAX ∧
    admissible_from 0 3 3 [2, 2, 2] 0 [1, 2, 3] = true ∧
    total_badness 0 3 [2, 2, 2] 0 (text_justify 0 [2, 2, 2] 3) ≤
      total_badness 0 3 [2, 2, 2] 0 [1, 2, 3] :=
  ⟨by decide, by decide, c3_amended 0 [2, 2, 2] 3 [1, 2, 3] (by decide) (by decide)⟩

/-! ## Claim C4 (digit counting) -/

theorem dec_chars_aux_length : ∀ (fuel n : Nat), n ≠ 0 → n ≤ fuel →
    (dec_chars_aux fuel n).length = Nat.log 10 n + 1 := by
  intro fuel
  induction fuel with
  | zero => intro n h1 h2; omega
  | succ fuel ih =>
    intro n h1 h2
    simp only [dec_chars_aux, if_neg h1, List.length_append, List.length_cons,
      List.length_nil]
    by_cases h10 : n < 10
    · have hz : n / 10 = 0 := Nat.div_eq_of_lt h10
      rw [hz]
      have he : dec_chars_aux fuel 0 = [] := by cases fuel <;> simp [dec_chars_aux]
      rw [he]
      have hl : Nat.log 10 n = 0 := Nat.log_eq_zero_iff.mpr (Or.inl h10)
      simp [hl]
    · have hq : n / 10 ≠ 0 := by
        have : 1 ≤ n / 10 := (Nat.one_le_div_iff (by norm_num)).mpr (by omega)
        omega
      have hlt : n / 10 < n := Nat.div_lt_self (by omega) (by norm_num)
      rw [ih (n / 10) hq (by omega)]
      have hld : Nat.log 10 (n / 10) = Nat.log 10 n - 1 := Nat.log_div_base 10 n
      have hpos : 0 < Nat.log 10 n := Nat.log_pos (by norm_num) (by omega)
      omega

theorem dec_len_nat_eq (n : Nat) (h : n ≠ 0) : dec_len_nat n = Nat.log 10 n + 1 := by
  simp only [dec_len_nat, nat_dec_chars, if_neg h]
  exact dec_chars_aux_length n n h (Nat.le_refl n)

theorem dec_len_of_bounds (k n : Nat) (h1 : 10 ^ k ≤ n) (h2 : n < 10 ^ (k + 1)) :
    dec_len_nat n = k + 1 := by
  have hp : 0 < (10 : Nat) ^ k := pow_pos (by norm_num) k
  have hn : n ≠ 0 := by omega
  rw [dec_len_nat_eq n hn, Nat.log_eq_of_pow_le_of_lt_pow h1 h2]

theorem dec_len_le_of_lt_pow (k n : Nat) (h : n < 10 ^ k) (hk : 1 ≤ k) :
    dec_len_nat n ≤ k := by
  by_cases h0 : n = 0
  · subst h0; simpa [dec_len_nat, nat_dec_chars] using hk
  · rw [dec_len_nat_eq n h0]
    have := Nat.log_lt_of_lt_pow h0 h
    omega

theorem u64_digit_tree_eq (n count : Nat) (h0 : n ≠ 0) (h64 : n < 2 ^ 64) :
    u64_digit_tree n count = count + dec_len_nat n := by
  have hlt : n < 100000000000000000000 := by
    have h := h64
    norm_num at h
    omega
  unfold u64_digit_tree
  split_ifs <;>
    first
      | rw [dec_len_of_bounds 0 n (by norm_num; omega) (by norm_num; omega)]
      | rw [dec_len_of_bounds 1 n (by norm_num; omega) (by norm_num; omega)]
      | rw [dec_len_of_bounds 2 n (by norm_num; omega) (by norm_num; omega)]
      | rw [dec_len_of_bounds 3 n (by norm_num; omega) (by norm_num; omega)]
      | rw [dec_len_of_bounds 4 n (by norm_num; omega) (by norm_num; omega)]
      | rw [dec_len_of_bounds 5 n (by norm_num; omega) (by norm_num; omega)]
      | rw [dec_len_of_bounds 6 n (by norm_num; omega) (by norm_num; omega)]
      | rw [dec_len_of_bounds 7 n (by norm_num; omega) (by norm_num; omega)]
      | rw [dec_len_of_bounds 8 n (by norm_num; omega) (by norm_num; omega)]
      | rw [dec_len_of_bounds 9 n (by norm_num; omega) (by norm_num; omega)]
      | rw [dec_len_of_bounds 10 n (by norm_num; omega) (by norm_num; omega)]
      | rw [dec_len_of_bounds 11 n (by norm_num; omega) (by norm_num; omega)]
      | rw [dec_len_of_bounds 12 n (by norm_num; omega) (by norm_num; omega)]
      | rw [dec_len_of_bounds 13 n (by norm_num; omega) (by norm_num; omega)]
      | rw [dec_len_of_bounds 14 n (by norm_num; omega) (by norm_num; omega)]
      | rw [dec_len_of_bounds 15 n (by norm_num; omega) (by norm_num; omega)]
      | rw [dec_len_of_bounds 16 n (by norm_num; omega) (by norm_num; omega)]
      | rw [dec_len_of_bounds 17 n (by norm_num; omega) (by norm_num; omega)]
      | rw [dec_len_of_bounds 18 n (by norm_num; omega) (by norm_num; omega)]
      | rw [dec_len_of_bounds 19 n (by norm_num; omega) (by norm_num; omega)]

theorem digit_count_u64_eq (n : Nat) (h : n < 2 ^ 64) :
    digit_count_u64 n = dec_len_nat n := by
  by_cases h0 : n = 0
  · subst h0; rfl
  · simp only [digit_count_u64, if_neg h0]
    rw [u64_digit_tree_eq n 0 h0 h]
    omega

theorem u128_mulhi_eq (x y : Nat) : u128_mulhi x y = x * y / 2 ^ 128 := by
  have hxy : x * y =
      (x % 2 ^ 64) * (y % 2 ^ 64) +
        ((x / 2 ^ 64) * (y / 2 ^ 64) * 2 ^ 64 + (x / 2 ^ 64) * (y % 2 ^ 64) +
          (x % 2 ^ 64) * (y / 2 ^ 64)) * 2 ^ 64 := by
    conv_lhs => rw [← Nat.div_add_mod x (2 ^ 64), ← Nat.div_add_mod y (2 ^ 64)]
    ring
  simp only [u128_mulhi]
  omega

theorem udivmod_small_branch (n : Nat) :
    (n >>> 19) / (TEN_19 >>> 19) = n / TEN_19 := by
  rw [Nat.shiftRight_eq_div_pow, Nat.shiftRight_eq_div_pow, Nat.div_div_eq_div_mul]
  norm_num [TEN_19]

theorem magic_div_eq (n : Nat) (h : n < 2 ^ 128) :
    n * 156927543384667019095894735580191660403 / 2 ^ 190 = n / TEN_19 := by
  simp only [TEN_19] at *
  have hqle : n / 10000000000000000000 ≤ 34028236692093846346 := by omega
  have hTC : (10000000000000000000 : Nat) * 156927543384667019095894735580191660403 =
      2 ^ 190 + 4411138883991371776 := by norm_num
  have key : n * 156927543384667019095894735580191660403 =
      (n / 10000000000000000000) * 2 ^ 190 +
        ((n / 10000000000000000000) * 4411138883991371776 +
          (n % 10000000000000000000) * 156927543384667019095894735580191660403) := by
    conv_lhs => rw [← Nat.div_add_mod n 10000000000000000000]
    have expand : (10000000000000000000 * (n / 10000000000000000000) +
          n % 10000000000000000000) * 156927543384667019095894735580191660403 =
        (n / 10000000000000000000) *
            (10000000000000000000 * 156927543384667019095894735580191660403) +
          (n % 10000000000000000000) * 156927543384667019095894735580191660403 := by
      ring
    rw [expand, hTC]
    ring
  have hsmall : (n / 10000000000000000000) * 4411138883991371776 +
      (n % 10000000000000000000) * 156927543384667019095894735580191660403 < 2 ^ 190 := by
    have b1 : (n / 10000000000000000000) * 4411138883991371776 ≤
        34028236692093846346 * 4411138883991371776 :=
      Nat.mul_le_mul_right _ hqle
    have b2 : (n % 10000000000000000000) * 156927543384667019095894735580191660403 ≤
        9999999999999999999 * 156927543384667019095894735580191660403 :=
      Nat.mul_le_mul_right _ (by omega)
    have b3 : (34028236692093846346 : Nat) * 4411138883991371776 +
        9999999999999999999 * 156927543384667019095894735580191660403 < 2 ^ 190 := by
      norm_num
    omega
  rw [key]
  omega

theorem udivmod_1e19_eq (n : Nat) (h : n < 2 ^ 128) :
    udivmod_1e19 n = (n / TEN_19, n % TEN_19) := by
  have hquot : (if n < 2 ^ 83 then (n >>> 19) / (TEN_19 >>> 19)
      else u128_mulhi n 156927543384667019095894735580191660403 >>> 62) = n / TEN_19 := by
    split
    · exact udivmod_small_branch n
    · rw [u128_mulhi_eq, Nat.shiftRight_eq_div_pow, Nat.div_div_eq_div_mul]
      have h2 : (2 : Nat) ^ 128 * 2 ^ 62 = 2 ^ 190 := by norm_num
      rw [h2]
      exact magic_div_eq n h
  simp only [udivmod_1e19]
  rw [hquot]
  simp only [Prod.mk.injEq, TEN_19, true_and]
  omega

theorem digit_count_i64_eq (v : Int) (hlo : -(2 ^ 63) ≤ v) (hhi : v < 2 ^ 63) :
    digit_count_i64 v = dec_len_int v := by
  by_cases h0 : v = 0
  · subst h0; rfl
  · rcases lt_or_le v 0 with hneg | hpos
    · have hA1 : v.natAbs ≠ 0 := by omega
      have hA2 : v.natAbs < 2 ^ 64 := by omega
      have hx : ((v % (2 ^ 64 : Int)).toNat) = 2 ^ 64 - v.natAbs := by omega
      have hn : (2 ^ 64 - 1 - (2 ^ 64 - v.natAbs) + 1) % 2 ^ 64 = v.natAbs := by omega
      simp only [digit_count_i64, if_neg h0, hx, hneg, if_pos, if_true, ite_true, hn]
      rw [u64_digit_tree_eq _ 1 hA1 hA2]
      simp [dec_len_int, int_dec_chars, hneg, dec_len_nat]
      omega
    · have hvne : ¬ v < 0 := by omega
      have hA1 : v.natAbs ≠ 0 := by omega
      have hA2 : v.natAbs < 2 ^ 64 := by omega
      have hx : ((v % (2 ^ 64 : Int)).toNat) = v.natAbs := by omega
      simp only [digit_count_i64, if_neg h0, hx, hvne, if_false, ite_false]
      rw [u64_digit_tree_eq _ 0 hA1 hA2]
      simp [dec_len_int, int_dec_chars, hvne, dec_len_nat]

theorem dec_len_mul_pow_add (q r : Nat) (hq : q ≠ 0) (hr : r < 10 ^ 19) :
    dec_len_nat (q * 10 ^ 19 + r) = 19 + dec_len_nat q := by
  have hk1 : 10 ^ Nat.log 10 q ≤ q := Nat.pow_log_le_self 10 hq
  have hk2 : q < 10 ^ (Nat.log 10 q + 1) := Nat.lt_pow_succ_log_self (by norm_num) q
  have hlow : 10 ^ (Nat.log 10 q + 19) ≤ q * 10 ^ 19 + r := by
    calc 10 ^ (Nat.log 10 q + 19) = 10 ^ Nat.log 10 q * 10 ^ 19 := by rw [pow_add]
    _ ≤ q * 10 ^ 19 := Nat.mul_le_mul_right _ hk1
    _ ≤ q * 10 ^ 19 + r := Nat.le_add_right _ _
  have hhigh : q * 10 ^ 19 + r < 10 ^ (Nat.log 10 q + 19 + 1) := by
    calc q * 10 ^ 19 + r < (q + 1) * 10 ^ 19 := by omega
    _ ≤ 10 ^ (Nat.log 10 q + 1) * 10 ^ 19 := Nat.mul_le_mul_right _ hk2
    _ = 10 ^ (Nat.log 10 q + 19 + 1) := by rw [← pow_add]
  have hne : q * 10 ^ 19 + r ≠ 0 := by omega
  rw [dec_len_nat_eq _ hne, dec_len_nat_eq q hq,
    Nat.log_eq_of_pow_le_of_lt_pow hlow hhigh]
  omega

theorem digit_count_u128_mag_eq (n : Nat) (_h0 : n ≠ 0) (h : n < 2 ^ 128) :
    digit_count_u128_mag n = dec_len_nat n := by
  have hmod64 : n % TEN_19 < 2 ^ 64 := by simp only [TEN_19]; omega
  have hdiv128 : n / TEN_19 < 2 ^ 128 := by simp only [TEN_19]; omega
  have hmod2_64 : n / TEN_19 % TEN_19 < 2 ^ 64 := by simp only [TEN_19]; omega
  simp only [digit_count_u128_mag, udivmod_1e19_eq n h,
    udivmod_1e19_eq (n / TEN_19) hdiv128]
  rw [digit_count_u64_eq _ hmod64, digit_count_u64_eq _ hmod2_64]
  by_cases hq : n / TEN_19 = 0
  · rw [if_neg (by simp [hq])]
    have hmn : n % TEN_19 = n := by simp only [TEN_19] at hq ⊢; omega
    rw [hmn]
  · rw [if_pos hq]
    have hlen : dec_len_nat (n % TEN_19) ≤ 19 :=
      dec_len_le_of_lt_pow 19 _ (by simp only [TEN_19] at *; omega) (by norm_num)
    have hlen2 : dec_len_nat (n / TEN_19 % TEN_19) ≤ 19 :=
      dec_len_le_of_lt_pow 19 _ (by simp only [TEN_19] at *; omega) (by norm_num)
    by_cases hq2 : n / TEN_19 / TEN_19 = 0
    · rw [if_neg (by simp [hq2])]
      have hmodq : n / TEN_19 % TEN_19 = n / TEN_19 := by
        simp only [TEN_19] at hq2 ⊢; omega
      rw [hmodq]
      have hdecomp : dec_len_nat n = 19 + dec_len_nat (n / TEN_19) := by
        have h1 : n = (n / TEN_19) * 10 ^ 19 + n % TEN_19 := by
          simp only [TEN_19]; omega
        conv_lhs => rw [h1]
        rw [dec_len_mul_pow_add _ _ hq (by simp only [TEN_19]; omega)]
      rw [hdecomp]
      omega
    · rw [if_pos hq2]
      have h38 : 10 ^ 38 ≤ n := by simp only [TEN_19] at hq2; omega
      have h39 : n < 10 ^ (38 + 1) := by omega
      rw [dec_len_of_bounds 38 n h38 h39]
      omega

theorem digit_count_u128_eq (n : Nat) (h : n < 2 ^ 128) :
    digit_count_u128 n = dec_len_nat n := by
  by_cases h0 : n = 0
  · subst h0; rfl
  · simp only [digit_count_u128, if_neg h0]
    exact digit_count_u128_mag_eq n h0 h

theorem digit_count_i128_eq (v : Int) (hlo : -(2 ^ 127) ≤ v) (hhi : v < 2 ^ 127) :
    digit_count_i128 v = dec_len_int v := by
  by_cases h0 : v = 0
  · subst h0; rfl
  · rcases lt_or_le v 0 with hneg | hpos
    · have hA1 : v.natAbs ≠ 0 := by omega
      have hA2 : v.natAbs < 2 ^ 128 := by omega
      have hx : ((v % (2 ^ 128 : Int)).toNat) = 2 ^ 128 - v.natAbs := by omega
      have hn : (2 ^ 128 - 1 - (2 ^ 128 - v.natAbs) + 1) % 2 ^ 128 = v.natAbs := by
        omega
      simp only [digit_count_i128, if_neg h0, hx, hneg, if_pos, if_true, ite_true, hn]
      rw [digit_count_u128_mag_eq _ hA1 hA2]
      simp [dec_len_int, int_dec_chars, hneg, dec_len_nat]
    · have hvne : ¬ v < 0 := by omega
      have hA1 : v.natAbs ≠ 0 := by omega
      have hA2 : v.natAbs < 2 ^ 128 := by omega
      have hx : ((v % (2 ^ 128 : Int)).toNat) = v.natAbs := by omega
      simp only [digit_count_i128, if_neg h0, hx, hvne, if_false, ite_false]
      rw [digit_count_u128_mag_eq _ hA1 hA2]
      simp [dec_len_int, int_dec_chars, hvne, dec_len_nat]

/-- C4: for every signed or unsigned integer of every supported width,
the digit-count helpers (`impl_digit_count` for the 8..64-bit types, whose
value ranges all embed in the 64-bit instance proved here, and
`impl_digit_count_128` for the 128-bit types) return exactly the byte
length of the value's decimal representation, counting a leading minus
sign for negative values, without formatting the number. -/
theorem c4 :
    (∀ n : Nat, n < 2 ^ 64 → digit_count_u64 n = dec_len_nat n) ∧
    (∀ v : Int, -(2 ^ 63) ≤ v → v < 2 ^ 63 → digit_count_i64 v = dec_len_int v) ∧
    (∀ n : Nat, n < 2 ^ 128 → digit_count_u128 n = dec_len_nat n) ∧
    (∀ v : Int, -(2 ^ 127) ≤ v → v < 2 ^ 127 → digit_count_i128 v = dec_len_int v) :=
  ⟨fun n h => digit_count_u64_eq n h,
   fun v h1 h2 => digit_count_i64_eq v h1 h2,
   fun n h => digit_count_u128_eq n h,
   fun v h1 h2 => digit_count_i128_eq v h1 h2⟩

theorem c4_witness :
    digit_count_u64 12345 = dec_len_nat 12345 ∧
    digit_count_i64 (-12345) = dec_len_int (-12345) ∧
    digit_count_u128 123456789012345678901234567890 =
      dec_len_nat 123456789012345678901234567890 ∧
    digit_count_i128 (-123456789012345678901234567890) =
      dec_len_int (-123456789012345678901234567890) :=
  ⟨c4.1 12345 (by norm_num),
   c4.2.1 (-12345) (by norm_num) (by norm_num),
   c4.2.2.1 123456789012345678901234567890 (by norm_num),
   c4.2.2.2 (-123456789012345678901234567890) (by norm_num) (by norm_num)⟩

end PPrint
